import Mathlib

/-!
Verification development for the twee-godot Harlowe parser.

The repository parses Harlowe (Twine) passage markup into a JSON-like
syntax tree using the `typescript-parsec` combinator library.  Two parser
iterations are relevant here and are both embedded below:

* the live entry point, the second module of `src/utils/parseHarlowe.ts`
  (namespace `V2` below): tokenizer rules, literal/expression/keyword-arg
  grammar, the macro-argument pattern table, and `parseHarlowe`;
* the iteration in `src/unnamed/part_002` (namespace `P2` below), the only
  iteration that implements `[[...]]` links and structured hook content
  with nested macros.

Strings are embedded as `List Char` (`Str`).  Numbers keep the matched
lexeme text: the source stores `parseFloat(t.text)`, a deterministic
function of the text whose IEEE-754 value no claim inspects.

External drivers.  The `typescript-parsec` library itself is not part of
the repository, so its two drivers are modelled explicitly:

* the lexer driver (`pickBest`/`tokenizeAux`): at each position every rule
  pattern is tried, the longest match wins and ties go to the earliest
  declared rule; a matched rule with `keep = false` advances the position
  without emitting a token.  This is the library's documented lexer
  behaviour, and the repository's own rule lists depend on it: the live
  tokenizer declares the hook-content pattern `\[[^\]]*\]` after the
  hook-open pattern `\[` (with the comment "capture everything between
  [ and ]"), and its tests exercise `(live: 2s)[Time is running!]` and
  `[[ Back -> Home]]`, which only tokenize as intended under longest
  match.  `firstMatchIdx` below, in contrast, follows the spec's words
  ("commit to the first pattern that matches") for comparison.
* the grammar driver (`Pr` combinators): modelled from the spec's
  recursive-descent contract — ordered alternatives, sequencing,
  greedy repetition, and the whole-input check of `expectEOF` /
  `expectSingleResult` (trailing tokens are a fatal error).
-/

namespace Twee

/-- Strings are embedded as lists of characters. -/
abbrev Str := List Char

/-- The apostrophe character (written via its code point). -/
def apos : Char := Char.ofNat 39

/-- The characters of the JavaScript regex class `\s` (whitespace). -/
def wsChars : List Char :=
  [' ', '\t', '\n', '\r', Char.ofNat 11, Char.ofNat 12,
   Char.ofNat 0xa0, Char.ofNat 0x1680,
   Char.ofNat 0x2000, Char.ofNat 0x2001, Char.ofNat 0x2002, Char.ofNat 0x2003,
   Char.ofNat 0x2004, Char.ofNat 0x2005, Char.ofNat 0x2006, Char.ofNat 0x2007,
   Char.ofNat 0x2008, Char.ofNat 0x2009, Char.ofNat 0x200a,
   Char.ofNat 0x2028, Char.ofNat 0x2029, Char.ofNat 0x202f,
   Char.ofNat 0x205f, Char.ofNat 0x3000, Char.ofNat 0xfeff]

/-- JavaScript `\s` membership. -/
def jsWs (c : Char) : Bool := wsChars.contains c

/-- JavaScript `\d`: the ASCII digits. -/
def isDigitC (c : Char) : Bool := c.isDigit

/-- The regex class `[a-zA-Z]`. -/
def isAlphaC (c : Char) : Bool := c.isAlpha

/-- The regex class `[a-zA-Z0-9_-]` used by macro names and variables. -/
def isIdC (c : Char) : Bool := isAlphaC c || isDigitC c || c = '_' || c = '-'

/-- JavaScript `\w`, used by the `\b` word-boundary assertion. -/
def isWordC (c : Char) : Bool := isAlphaC c || isDigitC c || c = '_'

/-- The regex class `[a-zA-Z_]` (first character of a variable name). -/
def isAlphaUndC (c : Char) : Bool := isAlphaC c || c = '_'

/-- JavaScript `String.prototype.trim`: strip leading and trailing
whitespace. -/
def jsTrim (s : Str) : Str :=
  ((s.dropWhile jsWs).reverse.dropWhile jsWs).reverse

/-- JavaScript `slice(1, -1)`: drop the first and last character, used to
strip string-literal quotes, hook brackets and macro-name delimiters. -/
def sliceEnds (s : Str) : Str := (s.drop 1).dropLast

/-! ## Lexical analysis

`LexRule` is one entry of a `buildLexer` rule list: the `keep` flag, the
pattern (as a match-length function on the remaining input), and the token
kind.  `pickBest` chooses the winning rule at the current position:
longest match first, earliest declared rule on ties. -/

/-- One tokenizer rule: keep flag, pattern matcher (length of the match at
the front of the input, if any), token kind. -/
structure LexRule (κ : Type) where
  keep : Bool
  run : Str → Option Nat
  kind : κ

/-- One lexed token: its kind and its raw text. -/
structure Token (κ : Type) where
  kind : κ
  text : Str
  deriving DecidableEq, Repr

/-- Choose the winning rule among `rules` (numbered from `i`): the longest
match wins and ties go to the earlier rule.  Returns
`(index, length, kind, keep)`. -/
def pickBestAux {κ : Type} : List (LexRule κ) → Nat → Str → Option (Nat × Nat × κ × Bool)
  | [], _, _ => none
  | r :: rest, i, s =>
      let tail := pickBestAux rest (i + 1) s
      match r.run s with
      | none => tail
      | some n =>
          match tail with
          | none => some (i, n, r.kind, r.keep)
          | some (j, m, k, b) =>
              if n < m then some (j, m, k, b) else some (i, n, r.kind, r.keep)

/-- The winning rule of the whole rule list at the current position. -/
def pickBest {κ : Type} (rules : List (LexRule κ)) (s : Str) :
    Option (Nat × Nat × κ × Bool) :=
  pickBestAux rules 0 s

/-- Modelled from the spec: the tokenizer driver the specification
describes, which commits to the first declared pattern that matches at the
current position (spec §4.1), regardless of the lengths of later matches.
Returns `(index, length)` of that first matching rule.  Compared against
`pickBest`, the embedded behaviour of the actual lexer driver. -/
def firstMatchIdx {κ : Type} : List (LexRule κ) → Str → Option (Nat × Nat)
  | [], _ => none
  | r :: rest, s =>
      match r.run s with
      | some n => some (0, n)
      | none => (firstMatchIdx rest s).map (fun p => (p.1 + 1, p.2))

/-- The message of the library's error when no rule matches the remaining
input (its exact wording is external to the repository). -/
def tokRestMsg : Str := "Unable to tokenize the rest of the input".data

/-- Run the tokenizer: repeatedly pick the best rule, advance by the
matched length, and emit a token exactly when the winning rule keeps its
match.  `fuel` bounds the recursion; every rule pattern of this repository
matches at least one character, so `length + 1` fuel always suffices. -/
def tokenizeAux {κ : Type} (rules : List (LexRule κ)) : Nat → Str → Except Str (List (Token κ))
  | 0, _ => .error tokRestMsg
  | _ + 1, [] => .ok []
  | f + 1, s@(_ :: _) =>
      match pickBest rules s with
      | none => .error tokRestMsg
      | some (_, n, k, keep) =>
          if keep then
            (tokenizeAux rules f (s.drop n)).map (fun ts => ⟨k, s.take n⟩ :: ts)
          else
            tokenizeAux rules f (s.drop n)

/-- Tokenize a whole input string. -/
def tokenize {κ : Type} (rules : List (LexRule κ)) (s : Str) : Except Str (List (Token κ)) :=
  tokenizeAux rules (s.length + 1) s

/-! ### Pattern matchers

Each `run` function below is the hand translation of one tokenizer regex
of the repository.  All patterns are anchored at the start of the
remaining input (`buildLexer` requires every pattern to start with `^`;
the two rules `'s|its|of` and `bind|2bind` anchor only their first
alternative in the source, and are embedded with every alternative
anchored, the prefix semantics the lexer contract assumes). -/

/-- Match a literal string at the front of the input. -/
def litM (pat : Str) : Str → Option Nat := fun s =>
  if pat.isPrefixOf s then some pat.length else none

/-- Leftmost alternative of two matchers (regex alternation). -/
def altM (a b : Str → Option Nat) : Str → Option Nat := fun s =>
  match a s with
  | some n => some n
  | none => b s

/-- Match one-or-more characters of a class at the front of the input
(regex `[...]+`). -/
def classM (p : Char → Bool) : Str → Option Nat := fun s =>
  let n := (s.takeWhile p).length
  if n = 0 then none else some n

/-- The `\b` assertion between match position `n` and the rest of `s`:
a word boundary holds iff exactly one of the adjacent characters is a
word character (end of input counts as a non-word character). -/
def wbAt (s : Str) (n : Nat) : Bool :=
  let last := (s.get? (n - 1)).getD ' '
  let next := s.get? n
  isWordC last != (match next with | some c => isWordC c | none => false)

/-- Require a word boundary after the match (regex `...\b`). -/
def withWB (m : Str → Option Nat) : Str → Option Nat := fun s =>
  match m s with
  | some n => if wbAt s n then some n else none
  | none => none

/-- Regex `\([a-zA-Z0-9_-]+:` (a macro-name token such as `(set:`). -/
def matchMacroNameLen : Str → Option Nat
  | '(' :: rest =>
      let n := (rest.takeWhile isIdC).length
      if n = 0 then none
      else
        match rest.drop n with
        | ':' :: _ => some (n + 2)
        | _ => none
  | _ => none

/-- Regex `\$[a-zA-Z_][a-zA-Z0-9_-]*` (a `$variable` token). -/
def matchVariableLen : Str → Option Nat
  | '$' :: c :: rest =>
      if isAlphaUndC c then some (2 + (rest.takeWhile isIdC).length) else none
  | _ => none

/-- Regex `\"[^\"]*\"` (a double-quoted string literal). -/
def matchStringLen : Str → Option Nat
  | '"' :: rest =>
      let n := (rest.takeWhile (fun c => !(c = '"'))).length
      match rest.drop n with
      | '"' :: _ => some (n + 2)
      | _ => none
  | _ => none

/-- Regex `\d+(\.\d+)?` (a number). -/
def matchNumberLen : Str → Option Nat := fun s =>
  let d := (s.takeWhile isDigitC).length
  if d = 0 then none
  else
    match s.drop d with
    | '.' :: r2 =>
        let d2 := (r2.takeWhile isDigitC).length
        if d2 = 0 then some d else some (d + 1 + d2)
    | _ => some d

/-- Regex `\d+(\.\d+)?s\b` (a time duration such as `2s`). -/
def matchTimeLen : Str → Option Nat := fun s =>
  match matchNumberLen s with
  | none => none
  | some n =>
      match s.drop n with
      | 's' :: _ => if wbAt s (n + 1) then some (n + 1) else none
      | _ => none

/-- Regex `\[[^\]]*\]` (the whole-hook token of the live tokenizer). -/
def matchHookContentLen : Str → Option Nat
  | '[' :: rest =>
      let n := (rest.takeWhile (fun c => !(c = ']'))).length
      match rest.drop n with
      | ']' :: _ => some (n + 2)
      | _ => none
  | _ => none

/-! ## Grammar combinators

Modelled from the spec: the recursive-descent grammar driver (§4.2–§4.6) —
a parser consumes a prefix of the token stream and yields a value and the
remaining tokens, alternatives are tried in order, repetition is greedy,
and the top level must consume every token.  The fuelled repetition
combinators stop when one iteration consumes no token. -/

/-- A grammar rule over tokens of kind `κ` producing an `α`. -/
def Pr (κ α : Type) : Type := List (Token κ) → Option (α × List (Token κ))

/-- Consume one token of the given kind (`tok(kind)`). -/
def tokP {κ : Type} [DecidableEq κ] (k : κ) : Pr κ (Token κ) := fun ts =>
  match ts with
  | [] => none
  | t :: rest => if t.kind = k then some (t, rest) else none

/-- Succeed without consuming input. -/
def pureP {κ α : Type} (a : α) : Pr κ α := fun ts => some (a, ts)

/-- Map over a rule's result (`apply`). -/
def mapP {κ α β : Type} (f : α → β) (p : Pr κ α) : Pr κ β := fun ts =>
  match p ts with
  | none => none
  | some (a, rest) => some (f a, rest)

/-- Ordered choice (`alt`): the second rule runs only when the first
fails. -/
def altP {κ α : Type} (p q : Pr κ α) : Pr κ α := fun ts =>
  match p ts with
  | some r => some r
  | none => q ts

/-- Sequencing (`seq`, in monadic form). -/
def bindP {κ α β : Type} (p : Pr κ α) (f : α → Pr κ β) : Pr κ β := fun ts =>
  match p ts with
  | none => none
  | some (a, rest) => f a rest

/-- Optional rule (`opt`): never fails. -/
def optP {κ α : Type} (p : Pr κ α) : Pr κ (Option α) := fun ts =>
  match p ts with
  | some (a, rest) => some (some a, rest)
  | none => some (none, ts)

/-- Greedy repetition (`rep`), fuelled; stops repeating when an iteration
consumes no token. -/
def repP {κ α : Type} (p : Pr κ α) : Nat → Pr κ (List α)
  | 0, ts => some ([], ts)
  | f + 1, ts =>
      match p ts with
      | none => some ([], ts)
      | some (a, rest) =>
          if rest.length < ts.length then
            match repP p f rest with
            | some (as, rest2) => some (a :: as, rest2)
            | none => none
          else some ([a], rest)

/-- The fuelled tail of `list_sc`: repeat `separator ; p`. -/
def listTailP {κ α β : Type} (p : Pr κ α) (sep : Pr κ β) : Nat → Pr κ (List α)
  | 0, ts => some ([], ts)
  | f + 1, ts =>
      match (bindP sep fun _ => p) ts with
      | none => some ([], ts)
      | some (a, rest) =>
          if rest.length < ts.length then
            match listTailP p sep f rest with
            | some (as, rest2) => some (a :: as, rest2)
            | none => none
          else some ([a], rest)

/-- Greedy separated list (`list_sc`): `p (sep p)*`. -/
def listScP {κ α β : Type} (p : Pr κ α) (sep : Pr κ β) : Pr κ (List α) :=
  bindP p fun a => fun ts =>
    match listTailP p sep (ts.length + 1) ts with
    | some (as, rest) => some (a :: as, rest)
    | none => none

/-! ## The syntax tree

One Lean inductive holds the node shapes of both embedded parser
iterations; every constructor corresponds to one `type:` tag built by the
source.  `num` keeps the matched lexeme (the source stores
`parseFloat(text)`, a deterministic function of it).  `frag` is a plain
JavaScript string sitting in `part_002`'s hook-content array next to node
objects. -/

inductive AST where
  /-- `{type:"String", value}` (quotes stripped). -/
  | str (value : Str)
  /-- `{type:"Time", value}` (the raw lexeme). -/
  | time (value : Str)
  /-- `{type:"Number", value:parseFloat(text)}`; the lexeme is kept. -/
  | num (text : Str)
  /-- `{type:"Boolean", value}`. -/
  | bool (value : Bool)
  /-- `{type:"Variable", name}` (sigil stripped). -/
  | var (name : Str)
  /-- `{type:"ArithmeticExpr", operator, left, right}` (live parser). -/
  | arith (op : Str) (left right : AST)
  /-- `{type:"ComparisonExpr", operator, left, right}` (live parser). -/
  | compare (op : Str) (left right : AST)
  /-- `{type:"Operation", operator, left, right}` (`part_002`). -/
  | operation (op : Str) (left right : AST)
  /-- `{type:"KeywordArg", keyword, left, right}` (live parser). -/
  | keywordArg (keyword : Str) (left right : AST)
  /-- `{type:"Hook", content}` (live parser; content is the raw slice). -/
  | hook (content : Str)
  /-- `{type:"Assignment", left, right}` (`part_002` macro argument). -/
  | assignment (left right : AST)
  /-- `{type:"Link", text, target}` with node payloads (`part_002` macro
  argument form). -/
  | linkArg (text target : AST)
  /-- `{type:"Link", text, target}` with string payloads (`part_002`
  `[[...]]` links). -/
  | link (text target : Str)
  /-- A plain JavaScript string inside a hook-content array. -/
  | frag (s : Str)
  /-- `{type:"HookContent", content}` (`part_002`: an array mixing
  strings and nodes). -/
  | hookContent (children : List AST)
  /-- `{type:"Macro", name, args, pattern, hookContent}` (live parser). -/
  | macroNode (name : Str) (args : List AST) (pat : List Str) (hookContent : Option AST)
  /-- `{type:"UnknownMacro", name, rawContent}` (live parser; the name is
  absent when the extraction regex fails). -/
  | unknownMacroNode (name : Option Str) (rawContent : Str)
  /-- `{type:"Macro", name, args, hook}` (`part_002`). -/
  | macro002 (name : Str) (args : List AST) (hk : Option AST)
  /-- `{type:"Text", content}` (`part_002` top level). -/
  | text (content : Str)
  /-- `{type:"Space", content}` (`part_002` top level). -/
  | space (content : Str)
  /-- `{type:"Program", expressions}`. -/
  | program (expressions : List AST)
  deriving Repr

/-- JavaScript truthiness of a produced node or string, as used by
`expressions.filter(Boolean)`: every value the grammar actions build is an
object or a non-empty-producing constructor, hence truthy. -/
def jsTruthy : AST → Bool := fun _ => true

/-- The expression list of a `program` node. -/
def exprsOf : AST → List AST
  | .program es => es
  | _ => []

/-! ## The live parser (second module of `src/utils/parseHarlowe.ts`) -/

namespace V2

/-- The token kinds of the live tokenizer (`enum TokenKind`). -/
inductive TokenKind where
  | MacroName | Variable | HookOpen | HookClose | StringLiteral
  | Time | Number | Boolean | Comma | ComparisonOp | ArithmeticOp
  | LogicalOp | PropertyAccess | Binding | LParen | RParen | Arrow
  | To | Whitespace | Text | HookContent
  deriving DecidableEq, Repr

/-- The character class of the live tokenizer's generic-text rule,
regex `[^\[\]\(\)$,\s><="']+`. -/
def textCharV2 (c : Char) : Bool :=
  !(c = '[' || c = ']' || c = '(' || c = ')' || c = '$' || c = ',' ||
    jsWs c || c = '>' || c = '<' || c = '=' || c = '"' || c = apos)

/-- The live tokenizer's rule list (`buildLexer`, lines 350–372 of
`src/utils/parseHarlowe.ts`), in declared order. -/
def tokenizerV2 : List (LexRule TokenKind) :=
  [⟨true, matchMacroNameLen, .MacroName⟩,
   ⟨true, litM ")".data, .RParen⟩,
   ⟨true, matchVariableLen, .Variable⟩,
   ⟨true, matchStringLen, .StringLiteral⟩,
   ⟨true, matchTimeLen, .Time⟩,
   ⟨true, matchNumberLen, .Number⟩,
   ⟨true, altM (litM "true".data) (litM "false".data), .Boolean⟩,
   ⟨true, litM "->".data, .Arrow⟩,
   ⟨true, withWB (litM "to".data), .To⟩,
   ⟨true, altM (litM ">=".data) (altM (litM "<=".data) (altM (litM ">".data) (litM "<".data))), .ComparisonOp⟩,
   ⟨true, altM (withWB (litM "is not".data)) (altM (withWB (litM "is".data)) (altM (withWB (litM "contains".data)) (withWB (litM "does not contain".data)))), .ComparisonOp⟩,
   ⟨true, altM (litM "+".data) (altM (litM "-".data) (altM (litM "*".data) (litM "/".data))), .ArithmeticOp⟩,
   ⟨true, altM (withWB (litM "and".data)) (withWB (litM "or".data)), .LogicalOp⟩,
   ⟨true, altM (litM [apos, 's']) (altM (litM "its".data) (litM "of".data)), .PropertyAccess⟩,
   ⟨true, altM (litM "bind".data) (litM "2bind".data), .Binding⟩,
   ⟨true, litM "[".data, .HookOpen⟩,
   ⟨true, litM "]".data, .HookClose⟩,
   ⟨true, litM ",".data, .Comma⟩,
   ⟨false, classM jsWs, .Whitespace⟩,
   ⟨true, matchHookContentLen, .HookContent⟩,
   ⟨true, classM textCharV2, .Text⟩]

/-- Tokenize with the live tokenizer. -/
def tokenizeV2 (s : Str) : Except Str (List (Token TokenKind)) :=
  tokenize tokenizerV2 s

/-- The live parser's `LITERAL` rule: one token mapped to a typed value
node, alternatives in declared order. -/
def LITERAL : Pr TokenKind AST :=
  altP (mapP (fun t => AST.str (sliceEnds t.text)) (tokP .StringLiteral))
    (altP (mapP (fun t => AST.time t.text) (tokP .Time))
      (altP (mapP (fun t => AST.num t.text) (tokP .Number))
        (altP (mapP (fun t => AST.bool (t.text == "true".data)) (tokP .Boolean))
          (mapP (fun t => AST.var (t.text.drop 1)) (tokP .Variable)))))

/-- The live parser's `TERM` rule (an alias of `LITERAL`). -/
def TERM : Pr TokenKind AST := LITERAL

/-- The live parser's `ARITHMETIC_EXPR` rule: a term, optionally followed
by one arithmetic operator and a second term. -/
def ARITHMETIC_EXPR : Pr TokenKind AST :=
  bindP TERM fun l =>
    bindP (optP (bindP (tokP .ArithmeticOp) fun op => mapP (Prod.mk op) TERM)) fun r? =>
      pureP (match r? with
        | none => l
        | some (op, r) => AST.arith op.text l r)

/-- The live parser's `COMPARATIVE_EXPR` rule. -/
def COMPARATIVE_EXPR : Pr TokenKind AST :=
  bindP ARITHMETIC_EXPR fun l =>
    bindP (tokP .ComparisonOp) fun op =>
      mapP (fun r => AST.compare op.text l r) ARITHMETIC_EXPR

/-- The live parser's `EXPRESSION` rule: comparison first, then
arithmetic. -/
def EXPRESSION : Pr TokenKind AST := altP COMPARATIVE_EXPR ARITHMETIC_EXPR

/-- The live parser's `KEYWORD_ARG` rule: `expr (to | ->) expr`. -/
def KEYWORD_ARG : Pr TokenKind AST :=
  bindP EXPRESSION fun l =>
    bindP (altP (tokP .To) (tokP .Arrow)) fun kw =>
      mapP (fun r =>
          AST.keywordArg (if kw.kind = TokenKind.To then "to".data else "->".data) l r)
        EXPRESSION

/-- The live parser's `HOOK` rule: a single hook-content token with its
brackets stripped. -/
def HOOK : Pr TokenKind AST :=
  mapP (fun t => AST.hook (sliceEnds t.text)) (tokP .HookContent)

/-- The live parser's `MACRO_ARG` rule. -/
def MACRO_ARG : Pr TokenKind AST := altP KEYWORD_ARG EXPRESSION

/-- The live parser's static pattern table (`MACRO_ARG_PATTERNS`): macro
name to expected argument pattern and required keyword. -/
def MACRO_ARG_PATTERNS : List (Str × (List Str × Option Str)) :=
  [("set".data, (["KeywordArg".data], some "to".data)),
   ("link".data, (["KeywordArg".data], some "->".data)),
   ("if".data, (["Expression".data], none)),
   ("print".data, (["Expression".data], none)),
   ("a".data, (["Expression".data], none)),
   ("dm".data, (["Expression".data, "Expression".data, "Expression".data, "Expression".data], none)),
   ("live".data, (["Expression".data], none)),
   ("history".data, ([], none)),
   ("visited".data, (["Expression".data], none)),
   ("m".data, (["Expression".data], none))]

/-- Look a macro name up in the pattern table. -/
def lookupPattern (name : Str) : Option (List Str × Option Str) :=
  (MACRO_ARG_PATTERNS.find? (fun e => e.1 == name)).map Prod.snd

/-- JavaScript `text.match(/\(([a-zA-Z0-9_-]+):/)`, first capture group:
search for `(`, one-or-more identifier characters and `:`, anywhere in
the text. -/
def findMacroNameIn : Str → Option Str
  | [] => none
  | '(' :: rest =>
      let idpart := rest.takeWhile isIdC
      if idpart.length ≠ 0 ∧ (rest.drop idpart.length).head? = some ':' then
        some idpart
      else findMacroNameIn rest
  | _ :: rest => findMacroNameIn rest

/-- The live `MACRO` rule's semantic action (lines 542–564): extract the
name from the macro-name token, look it up, and build either an
`UnknownMacro` node (name absent from the table) or a `Macro` node.  No
keyword or arity validation is performed. -/
def macroCallbackV2 (nameTok : Token TokenKind) (args : Option (List AST))
    (hookContent : Option AST) : AST :=
  match findMacroNameIn nameTok.text with
  | none => AST.unknownMacroNode none nameTok.text
  | some nm =>
      match lookupPattern nm with
      | none => AST.unknownMacroNode (some nm) nameTok.text
      | some (pat, _) => AST.macroNode nm (args.getD []) pat hookContent

/-- The live `MACRO` rule: macro-name token, optional comma-separated
argument list, close paren, optional hook. -/
def MACRO_RULE : Pr TokenKind AST :=
  bindP (tokP .MacroName) fun nt =>
    bindP (optP (listScP MACRO_ARG (tokP .Comma))) fun args =>
      bindP (tokP .RParen) fun _ =>
        mapP (fun hk => macroCallbackV2 nt args hk) (optP HOOK)

/-- The children collected by the live `PROGRAM` rule's repetition. -/
def programChildrenV2 : Pr TokenKind (List AST) := fun ts =>
  repP MACRO_RULE (ts.length + 1) ts

/-- The live `PROGRAM` rule: repeated macros, filtered by JavaScript
truthiness. -/
def PROGRAM_RULE : Pr TokenKind AST :=
  mapP (fun es => AST.program (es.filter jsTruthy)) programChildrenV2

/-- The message of the live parser's own guard when the tokenizer yields
no token. -/
def tokFailedMsg : Str := "Tokenization failed".data

/-- The library's message when tokens remain after the top-level rule
(its exact wording is external to the repository). -/
def trailingMsg : Str := "Unable to consume the entire input".data

/-- The live parser's error wrapper:
`Error parsing: ${input}, error: ${message}`. -/
def wrapErr (input m : Str) : Str :=
  "Error parsing: ".data ++ input ++ ", error: ".data ++ m

/-- The live `parseHarlowe` entry point: tokenize, fail when no token was
produced, run `PROGRAM` and require the whole stream to be consumed, and
wrap every failure in the `Error parsing: ...` message. -/
def parseHarloweV2 (input : Str) : Except Str AST :=
  match tokenizeV2 input with
  | .error m => .error (wrapErr input m)
  | .ok [] => .error (wrapErr input tokFailedMsg)
  | .ok ts =>
      match PROGRAM_RULE ts with
      | some (prog, []) => .ok prog
      | some (_, _ :: _) => .error (wrapErr input trailingMsg)
      | none => .error (wrapErr input trailingMsg)

end V2

/-! ## The `src/unnamed/part_002` parser

The iteration implementing `[[...]]` links and structured hook content
with nested macros (`VALUE` and `HOOK_CONTENT` both reach back into
`MACRO`, so the grammar is mutually recursive and fuelled below).  The
dead rules of that file — `KEYWORD_ARG`, `HOOK`, `TERM`, `LINK_MACRO`
(its `MacroLink` token kind is never lexed) and `MODIFIED_HOOK` (not
reachable from `PROGRAM`) — are not embedded. -/

namespace P2

/-- The token kinds of `part_002` (`enum TokenKind`; only the kinds its
tokenizer can produce are listed, plus `Space`). -/
inductive TokenKind where
  | MacroName | Variable | HookOpen | HookClose | StringLiteral
  | Time | Number | Boolean | Comma | ComparisonOp | LogicalOp
  | RParen | Arrow | Text | LinkOpen | LinkClose | LinkArrowLeft
  | Plus | Minus | Multiply | Divide | GreaterThan | LessThan | To
  | Space
  deriving DecidableEq, Repr

/-- The whitespace class of `part_002`'s space rule, regex `[ \t\n\r]+`. -/
def spaceChar (c : Char) : Bool := c = ' ' || c = '\t' || c = '\n' || c = '\r'

/-- The character class of `part_002`'s generic-text rule, regex
`[^\[\]\(\)\-><,$\s"+*\/]+`. -/
def textChar002 (c : Char) : Bool :=
  !(c = '[' || c = ']' || c = '(' || c = ')' || c = '-' || c = '>' ||
    c = '<' || c = ',' || c = '$' || jsWs c || c = '"' || c = '+' ||
    c = '*' || c = '/')

/-- `part_002`'s tokenizer rule list (`buildLexer`, lines 56–97), in
declared order. -/
def tokenizer002 : List (LexRule TokenKind) :=
  [⟨false, classM spaceChar, .Space⟩,
   ⟨true, litM "+".data, .Plus⟩,
   ⟨true, litM "-".data, .Minus⟩,
   ⟨true, litM "*".data, .Multiply⟩,
   ⟨true, litM "/".data, .Divide⟩,
   ⟨true, litM ">".data, .GreaterThan⟩,
   ⟨true, litM "<".data, .LessThan⟩,
   ⟨true, altM (withWB (litM ">=".data)) (altM (withWB (litM "<=".data)) (altM (withWB (litM "is".data)) (altM (withWB (litM "contains".data)) (withWB (litM "does not contain".data))))), .ComparisonOp⟩,
   ⟨true, litM "[[".data, .LinkOpen⟩,
   ⟨true, litM "]]".data, .LinkClose⟩,
   ⟨true, litM "->".data, .Arrow⟩,
   ⟨true, litM "<-".data, .LinkArrowLeft⟩,
   ⟨true, litM "[".data, .HookOpen⟩,
   ⟨true, litM "]".data, .HookClose⟩,
   ⟨true, matchMacroNameLen, .MacroName⟩,
   ⟨true, litM ")".data, .RParen⟩,
   ⟨true, withWB (litM "to".data), .To⟩,
   ⟨true, altM (withWB (litM "and".data)) (withWB (litM "or".data)), .LogicalOp⟩,
   ⟨true, matchVariableLen, .Variable⟩,
   ⟨true, matchStringLen, .StringLiteral⟩,
   ⟨true, matchTimeLen, .Time⟩,
   ⟨true, matchNumberLen, .Number⟩,
   ⟨true, altM (withWB (litM "true".data)) (withWB (litM "false".data)), .Boolean⟩,
   ⟨true, litM ",".data, .Comma⟩,
   ⟨true, classM textChar002, .Text⟩]

/-- Tokenize with the `part_002` tokenizer. -/
def tokenize002 (s : Str) : Except Str (List (Token TokenKind)) :=
  tokenize tokenizer002 s

/-- The operator alternatives of `part_002`'s `EXPRESSION` rule. -/
def opTok002 : Pr TokenKind (Token TokenKind) :=
  altP (tokP .Plus) (altP (tokP .Minus) (altP (tokP .Multiply)
    (altP (tokP .Divide) (altP (tokP .GreaterThan)
      (altP (tokP .LessThan) (tokP .ComparisonOp))))))

mutual

/-- `part_002`'s `VALUE` rule: string, number, variable, time, or a
nested macro, in declared order. -/
def VALUE : Nat → Pr TokenKind AST
  | 0 => fun _ => none
  | f + 1 =>
      altP (mapP (fun t => AST.str (sliceEnds t.text)) (tokP .StringLiteral))
        (altP (mapP (fun t => AST.num t.text) (tokP .Number))
          (altP (mapP (fun t => AST.var (t.text.drop 1)) (tokP .Variable))
            (altP (mapP (fun t => AST.time t.text) (tokP .Time))
              (MACRO002 f))))

/-- `part_002`'s `EXPRESSION` rule: one value, optionally followed by one
operator token and a second value. -/
def EXPRESSION002 : Nat → Pr TokenKind AST
  | 0 => fun _ => none
  | f + 1 =>
      bindP (VALUE f) fun l =>
        bindP (optP (bindP opTok002 fun op => mapP (Prod.mk op) (VALUE f))) fun r? =>
          pureP (match r? with
            | none => l
            | some (op, r) => AST.operation op.text l r)

/-- `part_002`'s `MACRO_ARG` rule: `expr to expr` (an assignment),
`expr -> expr` (a link argument), or a bare expression. -/
def MACRO_ARG002 : Nat → Pr TokenKind AST
  | 0 => fun _ => none
  | f + 1 =>
      altP (bindP (EXPRESSION002 f) fun l =>
              bindP (tokP .To) fun _ =>
                mapP (fun r => AST.assignment l r) (EXPRESSION002 f))
        (altP (bindP (EXPRESSION002 f) fun l =>
                 bindP (tokP .Arrow) fun _ =>
                   mapP (fun r => AST.linkArg l r) (EXPRESSION002 f))
          (EXPRESSION002 f))

/-- One child of `part_002`'s `HOOK_CONTENT` repetition: a text token, a
space token or a string-literal token as a plain string, or a nested
macro as a structured node. -/
def HOOK_CHILD : Nat → Pr TokenKind AST
  | 0 => fun _ => none
  | f + 1 =>
      altP (mapP (fun t => AST.frag t.text) (tokP .Text))
        (altP (mapP (fun t => AST.frag t.text) (tokP .Space))
          (altP (MACRO002 f)
            (mapP (fun t => AST.frag t.text) (tokP .StringLiteral))))

/-- `part_002`'s `HOOK_CONTENT` rule: `[`, repeated children, `]`. -/
def HOOK_CONTENT002 : Nat → Pr TokenKind AST
  | 0 => fun _ => none
  | f + 1 =>
      bindP (tokP .HookOpen) fun _ =>
        bindP (fun ts => repP (HOOK_CHILD f) (ts.length + 1) ts) fun cs =>
          mapP (fun _ => AST.hookContent cs) (tokP .HookClose)

/-- `part_002`'s `MACRO` rule: macro-name token, optional comma-separated
arguments, close paren, optional hook content; the node keeps the name
with its delimiters sliced off. -/
def MACRO002 : Nat → Pr TokenKind AST
  | 0 => fun _ => none
  | f + 1 =>
      bindP (tokP .MacroName) fun nt =>
        bindP (optP (listScP (MACRO_ARG002 f) (tokP .Comma))) fun args =>
          bindP (tokP .RParen) fun _ =>
            mapP (fun hk => AST.macro002 (sliceEnds nt.text) (args.getD []) hk)
              (optP (HOOK_CONTENT002 f))

end

/-- The token-joining repetition of both `LINK` shapes: text and space
tokens (space tokens are discarded by the lexer and never appear). -/
def linkTextTok : Pr TokenKind (Token TokenKind) :=
  altP (tokP .Text) (tokP .Space)

/-- Join the texts of collected tokens (`.map(t => t.text).join("")`). -/
def joinTexts (ts : List (Token TokenKind)) : Str := (ts.map Token.text).flatten

/-- `part_002`'s `LINK` rule: `[[ text -> target ]]` or `[[ text ]]`
(target defaulting to the same content), both sides joined and trimmed. -/
def LINK : Pr TokenKind AST :=
  altP
    (bindP (tokP .LinkOpen) fun _ =>
      bindP (fun ts => repP linkTextTok (ts.length + 1) ts) fun as =>
        bindP (tokP .Arrow) fun _ =>
          bindP (fun ts => repP linkTextTok (ts.length + 1) ts) fun bs =>
            mapP (fun _ => AST.link (jsTrim (joinTexts as)) (jsTrim (joinTexts bs)))
              (tokP .LinkClose))
    (bindP (tokP .LinkOpen) fun _ =>
      bindP (fun ts => repP linkTextTok (ts.length + 1) ts) fun as =>
        mapP (fun _ => AST.link (jsTrim (joinTexts as)) (jsTrim (joinTexts as)))
          (tokP .LinkClose))

/-- One top-level child of `part_002`'s `PROGRAM` rule: a macro, a link,
a text node or a space node. -/
def PROG_CHILD (f : Nat) : Pr TokenKind AST :=
  altP (MACRO002 f)
    (altP LINK
      (altP (mapP (fun t => AST.text t.text) (tokP .Text))
        (mapP (fun t => AST.space t.text) (tokP .Space))))

/-- The grammar fuel used for a token stream (ample: each nesting level
of the grammar consumes at least one token and costs a bounded amount of
fuel). -/
def fuelFor (ts : List (Token TokenKind)) : Nat := 4 * ts.length + 8

/-- The children collected by `part_002`'s `PROGRAM` repetition. -/
def programChildren002 : Pr TokenKind (List AST) := fun ts =>
  repP (PROG_CHILD (fuelFor ts)) (ts.length + 1) ts

/-- `part_002`'s `PROGRAM` rule. -/
def PROGRAM002 : Pr TokenKind AST :=
  mapP (fun es => AST.program (es.filter jsTruthy)) programChildren002

/-- `part_002`'s `parseHarlowe` entry point (same structure and error
wrapper as the live parser). -/
def parse002 (input : Str) : Except Str AST :=
  match tokenize002 input with
  | .error m => .error (V2.wrapErr input m)
  | .ok [] => .error (V2.wrapErr input V2.tokFailedMsg)
  | .ok ts =>
      match PROGRAM002 ts with
      | some (prog, []) => .ok prog
      | some (_, _ :: _) => .error (V2.wrapErr input V2.trailingMsg)
      | none => .error (V2.wrapErr input V2.trailingMsg)

end P2

/-! ## Predicates and fixtures used by the claim statements -/

/-- A suffix-stable grammar rule: whatever it consumes, the remaining
tokens are a suffix of its input. -/
def PrSuffix {κ α : Type} (p : Pr κ α) : Prop :=
  ∀ ts a rest, p ts = some (a, rest) → rest <:+ ts

/-- A well-behaved top-level child: not a whitespace node, and if it is a
text node its trimmed content is non-empty. -/
def goodChild (e : AST) : Prop :=
  (∀ c, e ≠ AST.space c) ∧ (∀ c, e = AST.text c → jsTrim c ≠ [])

/-- A top-level child of the live parser: a macro or unknown-macro node. -/
def macroish (e : AST) : Prop :=
  (∃ nm args pat hk, e = AST.macroNode nm args pat hk) ∨
  (∃ nm? raw, e = AST.unknownMacroNode nm? raw)

/-- The invariant of `part_002` token streams: the lexer never emits a
space token, and every text token is a non-empty run of text-class
characters (in particular free of whitespace). -/
def Q002 (t : Token P2.TokenKind) : Prop :=
  t.kind ≠ P2.TokenKind.Space ∧
  (t.kind = P2.TokenKind.Text →
    t.text ≠ [] ∧ ∀ c ∈ t.text, P2.textChar002 c = true)

/-- A literal `<value>` token for the `(set: $v to <value>)` shape: one of
the live literal alternatives, with its payload. -/
inductive LitSpec where
  | str (s : Str)
  | time (s : Str)
  | num (s : Str)
  | bool (b : Bool)

/-- The token a `LitSpec` stands for. -/
def litTok : LitSpec → Token V2.TokenKind
  | .str s => ⟨.StringLiteral, '"' :: (s ++ ['"'])⟩
  | .time s => ⟨.Time, s⟩
  | .num s => ⟨.Number, s⟩
  | .bool b => ⟨.Boolean, if b then "true".data else "false".data⟩

/-- The node the live literal rule builds for a `LitSpec` token. -/
def litNode : LitSpec → AST
  | .str s => AST.str s
  | .time s => AST.time s
  | .num s => AST.num s
  | .bool b => AST.bool b

/-- The nested-macro fixture of claim C6:
`(history:)[You've visited (visited: "Room")]`. -/
def c6Input : Str :=
  "(history:)[You".data ++ [apos] ++ "ve visited (visited: \"Room\")]".data

/-- The hook-content children the `part_002` parser extracts from
`c6Input`: two plain strings and one structured macro node. -/
def c6Children : List AST :=
  [AST.frag ("You".data ++ [apos] ++ "ve".data),
   AST.frag "visited".data,
   AST.macro002 "visited".data [AST.str "Room".data] none]

/-- A link node both of whose sides are trimmed strings. -/
def trimmedLink (r : AST) : Prop :=
  ∃ a b, r = AST.link (jsTrim a) (jsTrim b)

/-- A structured `part_002` macro node (as opposed to a flat string
fragment). -/
def isMacroNode002 (r : AST) : Prop :=
  ∃ nm args hk, r = AST.macro002 nm args hk

/-- The flat hook-content string the live parser keeps for the claim C6
fixture: `You've visited (visited: "Room")`, brackets stripped. -/
def c6FlatHook : Str :=
  "You".data ++ [apos] ++ "ve visited (visited: \"Room\")".data

/-- A hook kept as one flat raw string (the live parser's `Hook` node
shape). -/
def isFlatHook (r : AST) : Prop := ∃ s, r = AST.hook s

/-! # Theorems -/

/-! ## List helpers -/

theorem dropWhile_all_neg {p : Char → Bool} :
    ∀ {l : Str}, (∀ a ∈ l, p a = false) → l.dropWhile p = l := by
  intro l h
  cases l with
  | nil => rfl
  | cons a t =>
      rw [List.dropWhile_cons]
      simp [h a (by simp)]

theorem jsTrim_of_no_ws {l : Str} (h : ∀ a ∈ l, jsWs a = false) :
    jsTrim l = l := by
  unfold jsTrim
  rw [dropWhile_all_neg h, dropWhile_all_neg (by intro a ha; exact h a (List.mem_reverse.mp ha)),
    List.reverse_reverse]

theorem take_takeWhile_length {p : Char → Bool} :
    ∀ (l : Str), l.take (l.takeWhile p).length = l.takeWhile p := by
  intro l
  induction l with
  | nil => rfl
  | cons a t ih =>
      rw [List.takeWhile_cons]
      by_cases h : p a = true
      · simp [h, ih]
      · simp [h]

/-! ## The lexer driver: characterization of `pickBestAux` -/

theorem pickBestAux_sound {κ : Type} :
    ∀ (rules : List (LexRule κ)) (i : Nat) (s : Str) (j n : Nat) (k : κ) (b : Bool),
    pickBestAux rules i s = some (j, n, k, b) →
    ∃ d r, j = i + d ∧ rules.get? d = some r ∧ r.run s = some n ∧ r.kind = k ∧ r.keep = b := by
  intro rules
  induction rules with
  | nil => intro i s j n k b h; simp [pickBestAux] at h
  | cons r rest ih =>
      intro i s j n k b h
      simp only [pickBestAux] at h
      cases hr : r.run s with
      | none =>
          rw [hr] at h
          obtain ⟨d, r', hd, hget, hrun, hk, hb⟩ := ih (i + 1) s j n k b h
          exact ⟨d + 1, r', by omega, by simpa using hget, hrun, hk, hb⟩
      | some n0 =>
          rw [hr] at h
          cases htail : pickBestAux rest (i + 1) s with
          | none =>
              rw [htail] at h
              obtain ⟨rfl, rfl, rfl, rfl⟩ :
                  j = i ∧ n = n0 ∧ k = r.kind ∧ b = r.keep := by
                have := Option.some.inj h
                exact ⟨(congrArg Prod.fst this).symm,
                  (congrArg (fun p => p.2.1) this).symm,
                  (congrArg (fun p => p.2.2.1) this).symm,
                  (congrArg (fun p => p.2.2.2) this).symm⟩
              exact ⟨0, r, by omega, rfl, hr, rfl, rfl⟩
          | some p =>
              obtain ⟨j', m', k', b'⟩ := p
              rw [htail] at h
              dsimp only [] at h
              by_cases hlt : n0 < m'
              · rw [if_pos hlt] at h
                have := Option.some.inj h
                obtain ⟨d, r', hd, hget, hrun, hk, hb⟩ :=
                  ih (i + 1) s j' m' k' b' htail
                refine ⟨d + 1, r', ?_, by simpa using hget, ?_, ?_, ?_⟩
                · have : j = j' := (congrArg Prod.fst this).symm; omega
                · have : n = m' := (congrArg (fun p => p.2.1) this).symm
                  rw [this]; exact hrun
                · have : k = k' := (congrArg (fun p => p.2.2.1) this).symm
                  rw [this]; exact hk
                · have : b = b' := (congrArg (fun p => p.2.2.2) this).symm
                  rw [this]; exact hb
              · rw [if_neg hlt] at h
                have := Option.some.inj h
                obtain ⟨rfl, rfl, rfl, rfl⟩ :
                    j = i ∧ n = n0 ∧ k = r.kind ∧ b = r.keep :=
                  ⟨(congrArg Prod.fst this).symm,
                    (congrArg (fun p => p.2.1) this).symm,
                    (congrArg (fun p => p.2.2.1) this).symm,
                    (congrArg (fun p => p.2.2.2) this).symm⟩
                exact ⟨0, r, by omega, rfl, hr, rfl, rfl⟩

theorem pickBestAux_none {κ : Type} :
    ∀ (rules : List (LexRule κ)) (i : Nat) (s : Str),
    pickBestAux rules i s = none →
    ∀ d r, rules.get? d = some r → r.run s = none := by
  intro rules
  induction rules with
  | nil => intro i s _ d r hget; simp at hget
  | cons r0 rest ih =>
      intro i s h d r hget
      simp only [pickBestAux] at h
      cases hr : r0.run s with
      | some n0 =>
          rw [hr] at h
          cases htail : pickBestAux rest (i + 1) s with
          | none => rw [htail] at h; simp at h
          | some p =>
              obtain ⟨a, b, c, d'⟩ := p
              rw [htail] at h
              dsimp only [] at h
              split at h <;> exact Option.noConfusion h
      | none =>
          rw [hr] at h
          cases d with
          | zero => simp at hget; rw [← hget]; exact hr
          | succ d => exact ih (i + 1) s h d r (by simpa using hget)

theorem pickBestAux_max {κ : Type} :
    ∀ (rules : List (LexRule κ)) (i : Nat) (s : Str) (j n : Nat) (k : κ) (b : Bool),
    pickBestAux rules i s = some (j, n, k, b) →
    ∀ d r m, rules.get? d = some r → r.run s = some m → m ≤ n := by
  intro rules
  induction rules with
  | nil => intro i s j n k b h; simp [pickBestAux] at h
  | cons r0 rest ih =>
      intro i s j n k b h d r m hget hrun
      simp only [pickBestAux] at h
      cases hr : r0.run s with
      | none =>
          rw [hr] at h
          cases d with
          | zero =>
              simp at hget; rw [← hget] at hrun; rw [hr] at hrun; cases hrun
          | succ d => exact ih (i + 1) s j n k b h d r m (by simpa using hget) hrun
      | some n0 =>
          rw [hr] at h
          cases htail : pickBestAux rest (i + 1) s with
          | none =>
              rw [htail] at h
              have hn : n = n0 := (congrArg (fun p => p.2.1) (Option.some.inj h)).symm
              cases d with
              | zero =>
                  simp at hget; rw [← hget] at hrun; rw [hr] at hrun
                  have := Option.some.inj hrun
                  omega
              | succ d =>
                  have := pickBestAux_none rest (i + 1) s htail d r (by simpa using hget)
                  rw [this] at hrun; cases hrun
          | some p =>
              obtain ⟨j', m', k', b'⟩ := p
              rw [htail] at h
              dsimp only [] at h
              by_cases hlt : n0 < m'
              · rw [if_pos hlt] at h
                have hn : n = m' := (congrArg (fun p => p.2.1) (Option.some.inj h)).symm
                cases d with
                | zero =>
                    simp at hget; rw [← hget] at hrun; rw [hr] at hrun
                    have : m = n0 := (Option.some.inj hrun).symm
                    omega
                | succ d =>
                    have := ih (i + 1) s j' m' k' b' htail d r m (by simpa using hget) hrun
                    omega
              · rw [if_neg hlt] at h
                have hn : n = n0 := (congrArg (fun p => p.2.1) (Option.some.inj h)).symm
                cases d with
                | zero =>
                    simp at hget; rw [← hget] at hrun; rw [hr] at hrun
                    have : m = n0 := (Option.some.inj hrun).symm
                    omega
                | succ d =>
                    have := ih (i + 1) s j' m' k' b' htail d r m (by simpa using hget) hrun
                    omega

theorem pickBestAux_tie {κ : Type} :
    ∀ (rules : List (LexRule κ)) (i : Nat) (s : Str) (j n : Nat) (k : κ) (b : Bool),
    pickBestAux rules i s = some (j, n, k, b) →
    ∀ d r, rules.get? d = some r → r.run s = some n → j ≤ i + d := by
  intro rules
  induction rules with
  | nil => intro i s j n k b h; simp [pickBestAux] at h
  | cons r0 rest ih =>
      intro i s j n k b h d r hget hrun
      simp only [pickBestAux] at h
      cases hr : r0.run s with
      | none =>
          rw [hr] at h
          cases d with
          | zero => simp at hget; rw [← hget] at hrun; rw [hr] at hrun; cases hrun
          | succ d =>
              have := ih (i + 1) s j n k b h d r (by simpa using hget) hrun
              omega
      | some n0 =>
          rw [hr] at h
          cases htail : pickBestAux rest (i + 1) s with
          | none =>
              rw [htail] at h
              have hj : j = i := (congrArg Prod.fst (Option.some.inj h)).symm
              omega
          | some p =>
              obtain ⟨j', m', k', b'⟩ := p
              rw [htail] at h
              dsimp only [] at h
              by_cases hlt : n0 < m'
              · rw [if_pos hlt] at h
                have hj : j = j' := (congrArg Prod.fst (Option.some.inj h)).symm
                have hn : n = m' := (congrArg (fun p => p.2.1) (Option.some.inj h)).symm
                cases d with
                | zero =>
                    simp at hget; rw [← hget] at hrun; rw [hr] at hrun
                    have := Option.some.inj hrun
                    omega
                | succ d =>
                    have := ih (i + 1) s j' m' k' b' htail d r (by simpa using hget)
                      (by rw [← hn]; exact hrun)
                    omega
              · rw [if_neg hlt] at h
                have hj : j = i := (congrArg Prod.fst (Option.some.inj h)).symm
                omega

/-! ## Token provenance -/

theorem except_map_ok {ε α β : Type} {f : α → β} {e : Except ε α} {b : β}
    (h : e.map f = .ok b) : ∃ a, e = .ok a ∧ b = f a := by
  cases e with
  | error m => simp [Except.map] at h
  | ok a => exact ⟨a, rfl, by simpa [Except.map] using h.symm⟩

/-- Every token a tokenizer run emits comes from some keep-rule of the
rule list, matching some suffix of the input for the token's exact text. -/
theorem tokenizeAux_prov {κ : Type} (rules : List (LexRule κ)) :
    ∀ (f : Nat) (s : Str) (ts : List (Token κ)),
    tokenizeAux rules f s = .ok ts →
    ∀ t ∈ ts, ∃ s' d r n, rules.get? d = some r ∧ r.keep = true ∧
      r.run s' = some n ∧ t.kind = r.kind ∧ t.text = s'.take n := by
  intro f
  induction f with
  | zero => intro s ts h; simp [tokenizeAux] at h
  | succ f ih =>
      intro s ts h t ht
      cases s with
      | nil =>
          simp only [tokenizeAux] at h
          obtain rfl : ([] : List (Token κ)) = ts := Except.ok.inj h
          cases ht
      | cons c rest =>
          simp only [tokenizeAux] at h
          cases hpick : pickBest rules (c :: rest) with
          | none => rw [hpick] at h; cases h
          | some q =>
              obtain ⟨i, n, k, keep⟩ := q
              rw [hpick] at h
              dsimp only [] at h
              obtain ⟨d, r, hd, hget, hrun, hk, hkeep⟩ :=
                pickBestAux_sound rules 0 (c :: rest) i n k keep hpick
              cases hkp : keep with
              | false =>
                  rw [hkp] at h
                  rw [if_neg Bool.false_ne_true] at h
                  exact ih _ _ h t ht
              | true =>
                  rw [hkp] at h
                  rw [if_pos rfl] at h
                  obtain ⟨ts', hts', rfl⟩ := except_map_ok h
                  rcases List.mem_cons.mp ht with rfl | hmem
                  · exact ⟨c :: rest, d, r, n, hget, by rw [hkeep, hkp], hrun, hk.symm, rfl⟩
                  · exact ih _ _ hts' t hmem

/-- A successful class match consists of one-or-more characters of the
class. -/
theorem classM_take {p : Char → Bool} {s : Str} {n : Nat}
    (h : classM p s = some n) : s.take n ≠ [] ∧ ∀ c ∈ s.take n, p c = true := by
  unfold classM at h
  by_cases h0 : (s.takeWhile p).length = 0
  · rw [if_pos h0] at h; cases h
  · rw [if_neg h0] at h
    obtain rfl := Option.some.inj h
    rw [take_takeWhile_length]
    refine ⟨?_, fun c hc => List.mem_takeWhile_imp hc⟩
    intro hnil
    exact h0 (by rw [hnil]; rfl)

theorem textChar002_no_ws {c : Char} (h : P2.textChar002 c = true) : jsWs c = false := by
  unfold P2.textChar002 at h
  by_cases hw : jsWs c = true
  · rw [hw] at h; simp at h
  · simpa using hw

/-- The `part_002` tokenizer's stream invariant: no space tokens, and
text tokens are non-empty runs of text-class characters. -/
theorem tokenize002_Q {s : Str} {ts : List (Token P2.TokenKind)}
    (h : P2.tokenize002 s = .ok ts) : ∀ t ∈ ts, Q002 t := by
  intro t ht
  obtain ⟨s', d, r, n, hget, hkeep, hrun, hk, htext⟩ :=
    tokenizeAux_prov P2.tokenizer002 (s.length + 1) s ts h t ht
  have hd : d < P2.tokenizer002.length := by
    by_contra hge
    rw [List.get?_eq_none.mpr (by omega)] at hget
    cases hget
  have hlen : P2.tokenizer002.length = 25 := by rfl
  rw [hlen] at hd
  constructor
  · -- never a space token: the only space-kind rule is rule 0, keep = false
    intro hsp
    rw [hsp] at hk
    interval_cases d <;>
      (obtain rfl : _ = r := by simpa [P2.tokenizer002] using hget) <;>
      first
        | exact absurd hkeep (by decide)
        | exact absurd hk (by decide)
  · -- text tokens: only rule 24 has kind Text, and it is a class match
    intro htx
    rw [htx] at hk
    have hrr : r.run = classM P2.textChar002 := by
      interval_cases d <;>
        (obtain rfl : _ = r := by simpa [P2.tokenizer002] using hget) <;>
        first
          | rfl
          | exact absurd hk (by decide)
    rw [hrr] at hrun
    obtain ⟨hne, hcls⟩ := classM_take hrun
    rw [htext]
    exact ⟨hne, fun c hc => hcls c hc⟩

/-! ## Combinator inversion and suffix stability -/

theorem bindP_eq_some {κ α β : Type} {p : Pr κ α} {f : α → Pr κ β}
    {ts : List (Token κ)} {b : β} {rest : List (Token κ)} :
    bindP p f ts = some (b, rest) ↔
      ∃ a mid, p ts = some (a, mid) ∧ f a mid = some (b, rest) := by
  unfold bindP
  cases h : p ts with
  | none => simp
  | some q =>
      obtain ⟨a, mid⟩ := q
      dsimp only []
      constructor
      · intro hh; exact ⟨a, mid, rfl, hh⟩
      · rintro ⟨a1, mid1, hh1, hh2⟩
        have h1 := congrArg Prod.fst (Option.some.inj hh1)
        have h2 := congrArg Prod.snd (Option.some.inj hh1)
        dsimp only [] at h1 h2
        subst h1; subst h2
        exact hh2

theorem mapP_eq_some {κ α β : Type} {g : α → β} {p : Pr κ α}
    {ts : List (Token κ)} {b : β} {rest : List (Token κ)} :
    mapP g p ts = some (b, rest) ↔
      ∃ a, p ts = some (a, rest) ∧ b = g a := by
  unfold mapP
  cases h : p ts with
  | none => simp
  | some q =>
      obtain ⟨a, mid⟩ := q
      dsimp only []
      constructor
      · intro hh
        have h1 := congrArg Prod.fst (Option.some.inj hh)
        have h2 := congrArg Prod.snd (Option.some.inj hh)
        dsimp only [] at h1 h2
        exact ⟨a, by rw [h2], h1.symm⟩
      · rintro ⟨a', ha', rfl⟩
        have h1 := congrArg Prod.fst (Option.some.inj ha')
        have h2 := congrArg Prod.snd (Option.some.inj ha')
        dsimp only [] at h1 h2
        subst h1; rw [h2]

theorem altP_eq_some {κ α : Type} {p q : Pr κ α} {ts : List (Token κ)}
    {x : α × List (Token κ)} :
    altP p q ts = some x ↔ p ts = some x ∨ (p ts = none ∧ q ts = some x) := by
  unfold altP
  cases h : p ts with
  | none => simp
  | some r => simp

theorem tokP_eq_some {κ : Type} [DecidableEq κ] {k : κ} {ts : List (Token κ)}
    {t : Token κ} {rest : List (Token κ)} :
    tokP k ts = some (t, rest) ↔ ts = t :: rest ∧ t.kind = k := by
  unfold tokP
  cases ts with
  | nil => simp
  | cons t0 r0 =>
      dsimp only []
      by_cases hk : t0.kind = k
      · rw [if_pos hk]
        constructor
        · intro h
          have := Option.some.inj h
          have h1 := congrArg Prod.fst this
          have h2 := congrArg Prod.snd this
          simp only at h1 h2
          subst h1; subst h2
          exact ⟨rfl, hk⟩
        · rintro ⟨h, _⟩
          obtain ⟨rfl, rfl⟩ := List.cons.inj h.symm
          rfl
      · rw [if_neg hk]
        constructor
        · intro h; cases h
        · rintro ⟨h, hkk⟩
          obtain ⟨rfl, rfl⟩ := List.cons.inj h.symm
          exact absurd hkk hk

theorem optP_eq_some {κ α : Type} {p : Pr κ α} {ts : List (Token κ)}
    {a? : Option α} {rest : List (Token κ)} :
    optP p ts = some (a?, rest) ↔
      (∃ a, a? = some a ∧ p ts = some (a, rest)) ∨
      (a? = none ∧ rest = ts ∧ p ts = none) := by
  unfold optP
  cases h : p ts with
  | none =>
      dsimp only []
      constructor
      · intro hh
        have h1 := congrArg Prod.fst (Option.some.inj hh)
        have h2 := congrArg Prod.snd (Option.some.inj hh)
        dsimp only [] at h1 h2
        exact Or.inr ⟨h1.symm, h2.symm, rfl⟩
      · rintro (⟨a, rfl, hp⟩ | ⟨rfl, rfl, _⟩)
        · cases hp
        · rfl
  | some q =>
      obtain ⟨a, mid⟩ := q
      dsimp only []
      constructor
      · intro hh
        have h1 := congrArg Prod.fst (Option.some.inj hh)
        have h2 := congrArg Prod.snd (Option.some.inj hh)
        dsimp only [] at h1 h2
        exact Or.inl ⟨a, h1.symm, by rw [h2]⟩
      · rintro (⟨a', ha', hp⟩ | ⟨rfl, rfl, hp⟩)
        · have h1 := congrArg Prod.fst (Option.some.inj hp)
          have h2 := congrArg Prod.snd (Option.some.inj hp)
          dsimp only [] at h1 h2
          rw [ha', h1.symm, h2]
        · cases hp

theorem tokP_suffix {κ : Type} [DecidableEq κ] (k : κ) : PrSuffix (tokP (κ := κ) k) := by
  intro ts a rest h
  obtain ⟨rfl, _⟩ := tokP_eq_some.mp h
  exact List.suffix_cons a rest

theorem pureP_suffix {κ α : Type} (a : α) : PrSuffix (pureP (κ := κ) a) := by
  intro ts x rest h
  obtain rfl : ts = rest := congrArg Prod.snd (Option.some.inj h)
  exact List.suffix_refl _

theorem mapP_suffix {κ α β : Type} {g : α → β} {p : Pr κ α} (hp : PrSuffix p) :
    PrSuffix (mapP g p) := by
  intro ts b rest h
  obtain ⟨a, ha, _⟩ := mapP_eq_some.mp h
  exact hp ts a rest ha

theorem altP_suffix {κ α : Type} {p q : Pr κ α} (hp : PrSuffix p) (hq : PrSuffix q) :
    PrSuffix (altP p q) := by
  intro ts a rest h
  rcases altP_eq_some.mp h with h1 | ⟨_, h2⟩
  · exact hp ts a rest h1
  · exact hq ts a rest h2

theorem bindP_suffix {κ α β : Type} {p : Pr κ α} {f : α → Pr κ β}
    (hp : PrSuffix p) (hf : ∀ a, PrSuffix (f a)) : PrSuffix (bindP p f) := by
  intro ts b rest h
  obtain ⟨a, mid, ha, hb⟩ := bindP_eq_some.mp h
  exact (hf a mid b rest hb).trans (hp ts a mid ha)

theorem optP_suffix {κ α : Type} {p : Pr κ α} (hp : PrSuffix p) :
    PrSuffix (optP p) := by
  intro ts a? rest h
  rcases optP_eq_some.mp h with ⟨a, _, hpa⟩ | ⟨_, rfl, _⟩
  · exact hp ts a rest hpa
  · exact List.suffix_refl _

theorem repP_suffix {κ α : Type} {p : Pr κ α} (hp : PrSuffix p) :
    ∀ f, PrSuffix (repP p f) := by
  intro f
  induction f with
  | zero =>
      intro ts as rest h
      obtain rfl : ts = rest := congrArg Prod.snd (Option.some.inj h)
      exact List.suffix_refl _
  | succ f ih =>
      intro ts as rest h
      simp only [repP] at h
      cases hpa : p ts with
      | none =>
          rw [hpa] at h
          obtain rfl : ts = rest := congrArg Prod.snd (Option.some.inj h)
          exact List.suffix_refl _
      | some q =>
          obtain ⟨a, mid⟩ := q
          rw [hpa] at h
          dsimp only [] at h
          by_cases hlt : mid.length < ts.length
          · rw [if_pos hlt] at h
            cases hrec : repP p f mid with
            | none => rw [hrec] at h; cases h
            | some q2 =>
                obtain ⟨as2, rest2⟩ := q2
                rw [hrec] at h
                obtain rfl : rest2 = rest := congrArg Prod.snd (Option.some.inj h)
                exact (ih mid as2 rest2 hrec).trans (hp ts a mid hpa)
          · rw [if_neg hlt] at h
            obtain rfl : mid = rest := congrArg Prod.snd (Option.some.inj h)
            exact hp ts a mid hpa

theorem listTailP_suffix {κ α β : Type} {p : Pr κ α} {sep : Pr κ β}
    (hp : PrSuffix p) (hsep : PrSuffix sep) :
    ∀ f, PrSuffix (listTailP p sep f) := by
  intro f
  induction f with
  | zero =>
      intro ts as rest h
      obtain rfl : ts = rest := congrArg Prod.snd (Option.some.inj h)
      exact List.suffix_refl _
  | succ f ih =>
      intro ts as rest h
      simp only [listTailP] at h
      cases hpa : (bindP sep fun _ => p) ts with
      | none =>
          rw [hpa] at h
          obtain rfl : ts = rest := congrArg Prod.snd (Option.some.inj h)
          exact List.suffix_refl _
      | some q =>
          obtain ⟨a, mid⟩ := q
          rw [hpa] at h
          dsimp only [] at h
          have hstep : mid <:+ ts := bindP_suffix hsep (fun _ => hp) ts a mid hpa
          by_cases hlt : mid.length < ts.length
          · rw [if_pos hlt] at h
            cases hrec : listTailP p sep f mid with
            | none => rw [hrec] at h; cases h
            | some q2 =>
                obtain ⟨as2, rest2⟩ := q2
                rw [hrec] at h
                obtain rfl : rest2 = rest := congrArg Prod.snd (Option.some.inj h)
                exact (ih mid as2 rest2 hrec).trans hstep
          · rw [if_neg hlt] at h
            obtain rfl : mid = rest := congrArg Prod.snd (Option.some.inj h)
            exact hstep

theorem listScP_suffix {κ α β : Type} {p : Pr κ α} {sep : Pr κ β}
    (hp : PrSuffix p) (hsep : PrSuffix sep) : PrSuffix (listScP p sep) := by
  intro ts as rest h
  unfold listScP at h
  obtain ⟨a, mid, ha, hb⟩ := bindP_eq_some.mp h
  cases hrec : listTailP p sep (mid.length + 1) mid with
  | none => rw [hrec] at hb; cases hb
  | some q =>
      obtain ⟨as2, rest2⟩ := q
      rw [hrec] at hb
      obtain rfl : rest2 = rest := congrArg Prod.snd (Option.some.inj hb)
      exact (listTailP_suffix hp hsep _ mid as2 rest2 hrec).trans (hp ts a mid ha)

/-- Suffix stability of a repetition whose fuel is recomputed from the
input (the `fun ts => repP p (ts.length + 1) ts` pattern). -/
theorem repAt_suffix {κ α : Type} {p : Pr κ α} (hp : PrSuffix p) (g : List (Token κ) → Nat) :
    PrSuffix (fun ts => repP p (g ts) ts) := by
  intro ts as rest h
  exact repP_suffix hp (g ts) ts as rest h

/-! ## Suffix stability and output shape of the `part_002` grammar -/

theorem opTok002_suffix : PrSuffix P2.opTok002 := by
  unfold P2.opTok002
  exact altP_suffix (tokP_suffix _) (altP_suffix (tokP_suffix _)
    (altP_suffix (tokP_suffix _) (altP_suffix (tokP_suffix _)
      (altP_suffix (tokP_suffix _) (altP_suffix (tokP_suffix _) (tokP_suffix _))))))

theorem p2_suffix : ∀ f : Nat,
    PrSuffix (P2.MACRO002 f) ∧ PrSuffix (P2.VALUE f) ∧
    PrSuffix (P2.EXPRESSION002 f) ∧ PrSuffix (P2.MACRO_ARG002 f) ∧
    PrSuffix (P2.HOOK_CHILD f) ∧ PrSuffix (P2.HOOK_CONTENT002 f) := by
  intro f
  induction f with
  | zero =>
      refine ⟨?_, ?_, ?_, ?_, ?_, ?_⟩ <;>
        (intro ts a rest h;
         simp only [P2.MACRO002, P2.VALUE, P2.EXPRESSION002, P2.MACRO_ARG002,
           P2.HOOK_CHILD, P2.HOOK_CONTENT002] at h;
         cases h)
  | succ f ih =>
      obtain ⟨ihM, ihV, ihE, ihA, ihC, ihH⟩ := ih
      refine ⟨?_, ?_, ?_, ?_, ?_, ?_⟩
      · simp only [P2.MACRO002]
        exact bindP_suffix (tokP_suffix _) fun nt =>
          bindP_suffix (optP_suffix (listScP_suffix ihA (tokP_suffix _))) fun args =>
            bindP_suffix (tokP_suffix _) fun _ =>
              mapP_suffix (optP_suffix ihH)
      · simp only [P2.VALUE]
        exact altP_suffix (mapP_suffix (tokP_suffix _))
          (altP_suffix (mapP_suffix (tokP_suffix _))
            (altP_suffix (mapP_suffix (tokP_suffix _))
              (altP_suffix (mapP_suffix (tokP_suffix _)) ihM)))
      · simp only [P2.EXPRESSION002]
        exact bindP_suffix ihV fun l =>
          bindP_suffix (optP_suffix (bindP_suffix opTok002_suffix fun op =>
            mapP_suffix ihV)) fun r? => pureP_suffix _
      · simp only [P2.MACRO_ARG002]
        exact altP_suffix
          (bindP_suffix ihE fun l => bindP_suffix (tokP_suffix _) fun _ => mapP_suffix ihE)
          (altP_suffix
            (bindP_suffix ihE fun l => bindP_suffix (tokP_suffix _) fun _ => mapP_suffix ihE)
            ihE)
      · simp only [P2.HOOK_CHILD]
        exact altP_suffix (mapP_suffix (tokP_suffix _))
          (altP_suffix (mapP_suffix (tokP_suffix _))
            (altP_suffix ihM (mapP_suffix (tokP_suffix _))))
      · simp only [P2.HOOK_CONTENT002]
        exact bindP_suffix (tokP_suffix _) fun _ =>
          bindP_suffix (repAt_suffix ihC (fun ts => ts.length + 1)) fun cs =>
            mapP_suffix (tokP_suffix _)

theorem LINK_suffix : PrSuffix P2.LINK := by
  unfold P2.LINK
  have hts : PrSuffix P2.linkTextTok := by
    unfold P2.linkTextTok
    exact altP_suffix (tokP_suffix _) (tokP_suffix _)
  exact altP_suffix
    (bindP_suffix (tokP_suffix _) fun _ =>
      bindP_suffix (repAt_suffix hts (fun ts => ts.length + 1)) fun as =>
        bindP_suffix (tokP_suffix _) fun _ =>
          bindP_suffix (repAt_suffix hts (fun ts => ts.length + 1)) fun bs =>
            mapP_suffix (tokP_suffix _))
    (bindP_suffix (tokP_suffix _) fun _ =>
      bindP_suffix (repAt_suffix hts (fun ts => ts.length + 1)) fun as =>
        mapP_suffix (tokP_suffix _))

theorem PROG_CHILD_suffix (f : Nat) : PrSuffix (P2.PROG_CHILD f) := by
  unfold P2.PROG_CHILD
  exact altP_suffix (p2_suffix f).1
    (altP_suffix LINK_suffix
      (altP_suffix (mapP_suffix (tokP_suffix _)) (mapP_suffix (tokP_suffix _))))

/-- Whatever `part_002`'s `MACRO` rule returns is a `Macro` node. -/
theorem MACRO002_shape : ∀ (f : Nat) (ts : List (Token P2.TokenKind)) (r : AST)
    (rest : List (Token P2.TokenKind)), P2.MACRO002 f ts = some (r, rest) →
    ∃ nm args hk, r = AST.macro002 nm args hk := by
  intro f ts r rest h
  cases f with
  | zero => simp only [P2.MACRO002] at h; cases h
  | succ f =>
      simp only [P2.MACRO002] at h
      obtain ⟨nt, m1, h1, h2⟩ := bindP_eq_some.mp h
      obtain ⟨args, m2, h3, h4⟩ := bindP_eq_some.mp h2
      obtain ⟨_, m3, h5, h6⟩ := bindP_eq_some.mp h4
      obtain ⟨hk, h7, h8⟩ := mapP_eq_some.mp h6
      exact ⟨_, _, _, h8⟩

/-! ## Tokenizing whitespace-only input -/

/-- The live tokenizer maps a whitespace-only input (including the empty
input) to the empty token stream: the whitespace rule wins every position
outright and its match is discarded. -/
theorem tokenizeV2_all_ws : ∀ s : Str, (∀ c ∈ s, jsWs c = true) →
    V2.tokenizeV2 s = .ok [] := by
  intro s h
  cases s with
  | nil => rfl
  | cons c r =>
      have hc : jsWs c = true := h c (by simp)
      have hr : r.takeWhile jsWs = r :=
        List.takeWhile_eq_self_iff.mpr (fun x hx => h x (by simp [hx]))
      have hpick : pickBest V2.tokenizerV2 (c :: r) =
          some (18, r.length + 1, V2.TokenKind.Whitespace, false) := by
        have hmem : c ∈ wsChars := by simpa [jsWs, List.elem_iff] using hc
        fin_cases hmem <;>
          simp +decide [pickBest, pickBestAux, V2.tokenizerV2, litM, List.isPrefixOf,
            matchMacroNameLen, matchVariableLen, matchStringLen, matchNumberLen, matchTimeLen,
            matchHookContentLen, classM, altM, withWB, V2.textCharV2, isDigitC, isIdC, isAlphaC,
            isAlphaUndC, List.takeWhile_cons, hr, jsWs, wsChars]
      show tokenizeAux V2.tokenizerV2 ((c :: r).length + 1) (c :: r) = .ok []
      have hlen : (c :: r).length + 1 = (r.length + 1) + 1 := by simp
      rw [hlen]
      simp only [tokenizeAux, hpick]
      rw [if_neg Bool.false_ne_true]
      have hdrop : (c :: r).drop (r.length + 1) = [] := by
        simp [List.drop_succ_cons]
      rw [hdrop]
      simp [tokenizeAux]

/-! ## Shape of the live parser's top-level children -/

/-- Whatever the live `MACRO` rule returns is a macro or unknown-macro
node. -/
theorem MACRO_RULE_shape {ts : List (Token V2.TokenKind)} {e : AST}
    {rest : List (Token V2.TokenKind)} (h : V2.MACRO_RULE ts = some (e, rest)) :
    macroish e := by
  unfold V2.MACRO_RULE at h
  obtain ⟨nt, m1, h1, h2⟩ := bindP_eq_some.mp h
  obtain ⟨args, m2, h3, h4⟩ := bindP_eq_some.mp h2
  obtain ⟨_, m3, h5, h6⟩ := bindP_eq_some.mp h4
  obtain ⟨hk, h7, h8⟩ := mapP_eq_some.mp h6
  subst h8
  rcases hfind : V2.findMacroNameIn nt.text with _ | nm
  · exact Or.inr ⟨none, nt.text, by simp [V2.macroCallbackV2, hfind]⟩
  · rcases hlook : V2.lookupPattern nm with _ | ⟨pat, kw⟩
    · exact Or.inr ⟨some nm, nt.text, by simp [V2.macroCallbackV2, hfind, hlook]⟩
    · exact Or.inl ⟨nm, args.getD [], pat, hk, by simp [V2.macroCallbackV2, hfind, hlook]⟩

/-- Every child collected by the live `PROGRAM` repetition is a macro or
unknown-macro node. -/
theorem childrenV2_macroish : ∀ (fu : Nat) (ts : List (Token V2.TokenKind))
    (es : List AST) (rest : List (Token V2.TokenKind)),
    repP V2.MACRO_RULE fu ts = some (es, rest) → ∀ e ∈ es, macroish e := by
  intro fu
  induction fu with
  | zero =>
      intro ts es rest h e he
      obtain rfl : ([] : List AST) = es := congrArg Prod.fst (Option.some.inj h)
      cases he
  | succ fu ih =>
      intro ts es rest h e he
      simp only [repP] at h
      cases hpa : V2.MACRO_RULE ts with
      | none =>
          rw [hpa] at h
          obtain rfl : ([] : List AST) = es := congrArg Prod.fst (Option.some.inj h)
          cases he
      | some q =>
          obtain ⟨a, mid⟩ := q
          rw [hpa] at h
          dsimp only [] at h
          by_cases hlt : mid.length < ts.length
          · rw [if_pos hlt] at h
            cases hrec : repP V2.MACRO_RULE fu mid with
            | none => rw [hrec] at h; cases h
            | some q2 =>
                obtain ⟨as2, rest2⟩ := q2
                rw [hrec] at h
                obtain rfl : a :: as2 = es := congrArg Prod.fst (Option.some.inj h)
                rcases List.mem_cons.mp he with rfl | hmem
                · exact MACRO_RULE_shape hpa
                · exact ih mid as2 rest2 hrec e hmem
          · rw [if_neg hlt] at h
            obtain rfl : [a] = es := congrArg Prod.fst (Option.some.inj h)
            rcases List.mem_cons.mp he with rfl | hmem
            · exact MACRO_RULE_shape hpa
            · cases hmem

/-! ## Shape of `part_002`'s top-level children -/

/-- One top-level `part_002` child is well behaved provided the head
tokens satisfy the stream invariant. -/
theorem PROG_CHILD_good (f : Nat) (ts : List (Token P2.TokenKind))
    (hQ : ∀ t ∈ ts, Q002 t) (e : AST) (rest : List (Token P2.TokenKind))
    (h : P2.PROG_CHILD f ts = some (e, rest)) : goodChild e := by
  unfold P2.PROG_CHILD at h
  rcases altP_eq_some.mp h with h1 | ⟨_, h1⟩
  · obtain ⟨nm, args, hk, rfl⟩ := MACRO002_shape f ts e rest h1
    exact ⟨fun c hh => AST.noConfusion hh, fun c hh => AST.noConfusion hh⟩
  rcases altP_eq_some.mp h1 with h2 | ⟨_, h2⟩
  · unfold P2.LINK at h2
    rcases altP_eq_some.mp h2 with h3 | ⟨_, h3⟩
    · obtain ⟨_, m1, _, h4⟩ := bindP_eq_some.mp h3
      obtain ⟨as, m2, _, h5⟩ := bindP_eq_some.mp h4
      obtain ⟨_, m3, _, h6⟩ := bindP_eq_some.mp h5
      obtain ⟨bs, m4, _, h7⟩ := bindP_eq_some.mp h6
      obtain ⟨_, _, rfl⟩ := mapP_eq_some.mp h7
      exact ⟨fun c hh => AST.noConfusion hh, fun c hh => AST.noConfusion hh⟩
    · obtain ⟨_, m1, _, h4⟩ := bindP_eq_some.mp h3
      obtain ⟨as, m2, _, h5⟩ := bindP_eq_some.mp h4
      obtain ⟨_, _, rfl⟩ := mapP_eq_some.mp h5
      exact ⟨fun c hh => AST.noConfusion hh, fun c hh => AST.noConfusion hh⟩
  rcases altP_eq_some.mp h2 with h3 | ⟨_, h3⟩
  · obtain ⟨t, ht, rfl⟩ := mapP_eq_some.mp h3
    obtain ⟨hts, hkind⟩ := tokP_eq_some.mp ht
    have hQt := hQ t (by rw [hts]; exact List.mem_cons_self t rest)
    obtain ⟨hne, hcls⟩ := hQt.2 hkind
    refine ⟨fun c hh => AST.noConfusion hh, fun c hh => ?_⟩
    obtain rfl : t.text = c := congrArg (fun e => match e with
      | AST.text x => x | _ => []) hh
    rw [jsTrim_of_no_ws (fun a ha => textChar002_no_ws (hcls a ha))]
    exact hne
  · obtain ⟨t, ht, rfl⟩ := mapP_eq_some.mp h3
    obtain ⟨hts, hkind⟩ := tokP_eq_some.mp ht
    have hQt := hQ t (by rw [hts]; exact List.mem_cons_self t rest)
    exact absurd hkind hQt.1

/-- Every child collected by `part_002`'s `PROGRAM` repetition is well
behaved. -/
theorem progChildren002_good : ∀ (fu f : Nat) (ts : List (Token P2.TokenKind)),
    (∀ t ∈ ts, Q002 t) → ∀ (es : List AST) (rest : List (Token P2.TokenKind)),
    repP (P2.PROG_CHILD f) fu ts = some (es, rest) → ∀ e ∈ es, goodChild e := by
  intro fu
  induction fu with
  | zero =>
      intro f ts hQ es rest h e he
      obtain rfl : ([] : List AST) = es := congrArg Prod.fst (Option.some.inj h)
      cases he
  | succ fu ih =>
      intro f ts hQ es rest h e he
      simp only [repP] at h
      cases hpa : P2.PROG_CHILD f ts with
      | none =>
          rw [hpa] at h
          obtain rfl : ([] : List AST) = es := congrArg Prod.fst (Option.some.inj h)
          cases he
      | some q =>
          obtain ⟨a, mid⟩ := q
          rw [hpa] at h
          dsimp only [] at h
          have hmidQ : ∀ t ∈ mid, Q002 t := fun t htm =>
            hQ t ((PROG_CHILD_suffix f ts a mid hpa).subset htm)
          by_cases hlt : mid.length < ts.length
          · rw [if_pos hlt] at h
            cases hrec : repP (P2.PROG_CHILD f) fu mid with
            | none => rw [hrec] at h; cases h
            | some q2 =>
                obtain ⟨as2, rest2⟩ := q2
                rw [hrec] at h
                obtain rfl : a :: as2 = es := congrArg Prod.fst (Option.some.inj h)
                rcases List.mem_cons.mp he with rfl | hmem
                · exact PROG_CHILD_good f ts hQ e mid hpa
                · exact ih f mid hmidQ as2 rest2 hrec e hmem
          · rw [if_neg hlt] at h
            obtain rfl : [a] = es := congrArg Prod.fst (Option.some.inj h)
            rcases List.mem_cons.mp he with rfl | hmem
            · exact PROG_CHILD_good f ts hQ e mid hpa
            · cases hmem

/-! # Claim theorems -/

/-- Claim C1: a syntactically well-formed macro call whose name is not in
the static pattern table parses to an `UnknownMacro` node carrying that
name and never raises any error for that macro — the live macro callback
has no failure path at all and builds `UnknownMacro` whenever the table
lookup misses; in particular `(bogusMacro: 1, 2)` parses successfully to
exactly that node. -/
theorem c1_unknown_macro_fallback (nt : Token V2.TokenKind) (args : Option (List AST))
    (hk : Option AST) (nm : Str) (h1 : V2.findMacroNameIn nt.text = some nm)
    (h2 : V2.lookupPattern nm = none) :
    V2.macroCallbackV2 nt args hk = AST.unknownMacroNode (some nm) nt.text ∧
    V2.parseHarloweV2 "(bogusMacro: 1, 2)".data =
      Except.ok (AST.program
        [AST.unknownMacroNode (some "bogusMacro".data) "(bogusMacro:".data]) := by
  constructor
  · simp [V2.macroCallbackV2, h1, h2]
  · rfl

theorem c1_unknown_macro_fallback_witness :
    V2.macroCallbackV2 ⟨V2.TokenKind.MacroName, "(foo:".data⟩ none none =
      AST.unknownMacroNode (some "foo".data) "(foo:".data ∧
    V2.parseHarloweV2 "(bogusMacro: 1, 2)".data =
      Except.ok (AST.program
        [AST.unknownMacroNode (some "bogusMacro".data) "(bogusMacro:".data]) :=
  c1_unknown_macro_fallback ⟨V2.TokenKind.MacroName, "(foo:".data⟩ none none
    "foo".data rfl rfl

/-- Claim C2 counterexample: `(link: "Next" to "Wrong")` does not raise
any error — the live parser returns a `Macro` node whose argument is the
`KeywordArg` with keyword `to`, even though the table requires `->` for
`link`. -/
theorem c2_keyword_mismatch_counterexample :
    V2.parseHarloweV2 "(link: \"Next\" to \"Wrong\")".data =
      Except.ok (AST.program [AST.macroNode "link".data
        [AST.keywordArg "to".data (AST.str "Next".data) (AST.str "Wrong".data)]
        ["KeywordArg".data] none]) := rfl

/-- Claim C2, amended: the live parser performs no keyword validation —
whenever a macro's name is found in the pattern table it returns a
`Macro` node carrying the parsed arguments unchanged, whatever keyword
they use; `(set: $x -> 2)` (whose table entry requires `to`) likewise
parses successfully. -/
theorem c2_no_keyword_validation (nt : Token V2.TokenKind) (args : Option (List AST))
    (hk : Option AST) (nm : Str) (pat : List Str) (kw : Option Str)
    (h1 : V2.findMacroNameIn nt.text = some nm)
    (h2 : V2.lookupPattern nm = some (pat, kw)) :
    V2.macroCallbackV2 nt args hk = AST.macroNode nm (args.getD []) pat hk ∧
    V2.parseHarloweV2 "(set: $x -> 2)".data =
      Except.ok (AST.program [AST.macroNode "set".data
        [AST.keywordArg "->".data (AST.var "x".data) (AST.num "2".data)]
        ["KeywordArg".data] none]) := by
  constructor
  · simp [V2.macroCallbackV2, h1, h2]
  · rfl

theorem c2_no_keyword_validation_witness :
    V2.macroCallbackV2 ⟨V2.TokenKind.MacroName, "(link:".data⟩
        (some [AST.keywordArg "to".data (AST.str "Next".data) (AST.str "Wrong".data)]) none =
      AST.macroNode "link".data
        [AST.keywordArg "to".data (AST.str "Next".data) (AST.str "Wrong".data)]
        ["KeywordArg".data] none ∧
    V2.parseHarloweV2 "(set: $x -> 2)".data =
      Except.ok (AST.program [AST.macroNode "set".data
        [AST.keywordArg "->".data (AST.var "x".data) (AST.num "2".data)]
        ["KeywordArg".data] none]) :=
  c2_no_keyword_validation ⟨V2.TokenKind.MacroName, "(link:".data⟩ _ none
    "link".data ["KeywordArg".data] (some "->".data) rfl rfl

/-- Claim C3 counterexample: on input `[x]` the first declared pattern
that matches is rule 15 (hook-open `\[`, length 1), yet the tokenizer
emits the hook-content token of rule 19 (length 3): the tokenizer does
not commit to the first matching pattern. -/
theorem c3_first_match_counterexample :
    firstMatchIdx V2.tokenizerV2 "[x]".data = some (15, 1) ∧
    pickBest V2.tokenizerV2 "[x]".data = some (19, 3, V2.TokenKind.HookContent, true) ∧
    V2.tokenizeV2 "[x]".data = .ok [⟨V2.TokenKind.HookContent, "[x]".data⟩] ∧
    (V2.tokenizerV2.get? 15).map LexRule.kind = some V2.TokenKind.HookOpen :=
  ⟨rfl, rfl, rfl, rfl⟩

/-- Claim C3, amended: at every position the tokenizer selects, among all
patterns that match, one of maximal match length, using the declared
priority order only to break ties; and the whitespace rule is exactly the
rule whose matches are discarded without emitting a token. -/
theorem c3_longest_match_priority (s : Str) (j n : Nat) (k : V2.TokenKind) (b : Bool)
    (h : pickBest V2.tokenizerV2 s = some (j, n, k, b)) :
    (∃ r, V2.tokenizerV2.get? j = some r ∧ r.run s = some n ∧ r.kind = k ∧ r.keep = b) ∧
    (∀ d r m, V2.tokenizerV2.get? d = some r → r.run s = some m → m ≤ n) ∧
    (∀ d r, V2.tokenizerV2.get? d = some r → r.run s = some n → j ≤ d) ∧
    (∀ r ∈ V2.tokenizerV2, (r.keep = false ↔ r.kind = V2.TokenKind.Whitespace)) := by
  refine ⟨?_, ?_, ?_, ?_⟩
  · obtain ⟨d, r, hd, hget, hrun, hk, hb⟩ := pickBestAux_sound _ 0 s j n k b h
    exact ⟨r, by rw [show j = d by omega]; exact hget, hrun, hk, hb⟩
  · intro d r m hget hrun
    exact pickBestAux_max _ 0 s j n k b h d r m hget hrun
  · intro d r hget hrun
    have := pickBestAux_tie _ 0 s j n k b h d r hget hrun
    omega
  · intro r hr
    fin_cases hr <;> constructor <;> intro hh <;> first | rfl | cases hh

theorem c3_longest_match_priority_witness :
    pickBest V2.tokenizerV2 "[x]".data = some (19, 3, V2.TokenKind.HookContent, true) ∧
    (1 : Nat) ≤ 3 :=
  ⟨rfl, (c3_longest_match_priority "[x]".data 19 3 V2.TokenKind.HookContent true rfl).2.1
    15 ⟨true, litM "[".data, V2.TokenKind.HookOpen⟩ 1 rfl rfl⟩

/-- Claim C4 counterexample: `(set: $companion to "Gallifrey")` parses to
a `set` macro whose argument list is the single `KeywordArg` node — not
the two-element list `Variable, value` the claim describes. -/
theorem c4_set_two_args_counterexample :
    V2.parseHarloweV2 "(set: $companion to \"Gallifrey\")".data =
      Except.ok (AST.program [AST.macroNode "set".data
        [AST.keywordArg "to".data (AST.var "companion".data) (AST.str "Gallifrey".data)]
        ["KeywordArg".data] none]) ∧
    [AST.keywordArg "to".data (AST.var "companion".data) (AST.str "Gallifrey".data)] ≠
      [AST.var "companion".data, AST.str "Gallifrey".data] := by
  refine ⟨rfl, ?_⟩
  intro h
  simp at h

/-- Claim C4, amended: every `(set: $v to <value>)` input parses to a
`Macro` node named `set` (never an `UnknownMacro`) whose single argument
is the `KeywordArg` with keyword `to`, left the `Variable` node for `v`
and right the parsed value node — stated over the token stream such an
input lexes to, for every variable name and every literal value. -/
theorem c4_set_keyword_arg (v : Str) (ls : LitSpec) :
    V2.PROGRAM_RULE [⟨V2.TokenKind.MacroName, "(set:".data⟩, ⟨V2.TokenKind.Variable, '$' :: v⟩,
        ⟨V2.TokenKind.To, "to".data⟩, litTok ls, ⟨V2.TokenKind.RParen, ")".data⟩] =
      some (AST.program [AST.macroNode "set".data
        [AST.keywordArg "to".data (AST.var v) (litNode ls)] ["KeywordArg".data] none], []) ∧
    V2.parseHarloweV2 "(set: $companion to \"Gallifrey\")".data =
      Except.ok (AST.program [AST.macroNode "set".data
        [AST.keywordArg "to".data (AST.var "companion".data) (AST.str "Gallifrey".data)]
        ["KeywordArg".data] none]) := by
  constructor
  · cases ls
    case bool b =>
      cases b <;>
        simp +decide [V2.PROGRAM_RULE, V2.programChildrenV2, repP, V2.MACRO_RULE, bindP, mapP,
          altP, optP, tokP, listScP, listTailP, V2.MACRO_ARG, V2.KEYWORD_ARG, V2.EXPRESSION,
          V2.COMPARATIVE_EXPR, V2.ARITHMETIC_EXPR, V2.TERM, V2.LITERAL, V2.macroCallbackV2,
          V2.findMacroNameIn, V2.lookupPattern, V2.MACRO_ARG_PATTERNS, pureP, V2.HOOK, sliceEnds,
          litTok, litNode, jsTruthy, isIdC, isAlphaC, isDigitC, List.dropLast_concat]
    all_goals
      simp +decide [V2.PROGRAM_RULE, V2.programChildrenV2, repP, V2.MACRO_RULE, bindP, mapP,
        altP, optP, tokP, listScP, listTailP, V2.MACRO_ARG, V2.KEYWORD_ARG, V2.EXPRESSION,
        V2.COMPARATIVE_EXPR, V2.ARITHMETIC_EXPR, V2.TERM, V2.LITERAL, V2.macroCallbackV2,
        V2.findMacroNameIn, V2.lookupPattern, V2.MACRO_ARG_PATTERNS, pureP, V2.HOOK, sliceEnds,
        litTok, litNode, jsTruthy, isIdC, isAlphaC, isDigitC, List.dropLast_concat]
  · rfl

/-- Claim C5: `[[Home]]` parses to a link with text and target `Home`;
`[[ Back -> Home ]]` parses to a link with text `Back` and target `Home`;
and in both link shapes each side of any successful `LINK` parse is a
trimmed string (the rule applies `trim` to the joined side). -/
theorem c5_link_shapes :
    P2.parse002 "[[Home]]".data =
      Except.ok (AST.program [AST.link "Home".data "Home".data]) ∧
    P2.parse002 "[[ Back -> Home ]]".data =
      Except.ok (AST.program [AST.link "Back".data "Home".data]) ∧
    ∀ ts r rest, P2.LINK ts = some (r, rest) → trimmedLink r := by
  refine ⟨rfl, rfl, ?_⟩
  intro ts r rest h
  unfold P2.LINK at h
  rcases altP_eq_some.mp h with h1 | ⟨_, h1⟩
  · obtain ⟨_, m1, _, h2⟩ := bindP_eq_some.mp h1
    obtain ⟨as, m2, _, h3⟩ := bindP_eq_some.mp h2
    obtain ⟨_, m3, _, h4⟩ := bindP_eq_some.mp h3
    obtain ⟨bs, m4, _, h5⟩ := bindP_eq_some.mp h4
    obtain ⟨_, _, rfl⟩ := mapP_eq_some.mp h5
    exact ⟨P2.joinTexts as, P2.joinTexts bs, rfl⟩
  · obtain ⟨_, m1, _, h2⟩ := bindP_eq_some.mp h1
    obtain ⟨as, m2, _, h3⟩ := bindP_eq_some.mp h2
    obtain ⟨_, _, rfl⟩ := mapP_eq_some.mp h3
    exact ⟨P2.joinTexts as, P2.joinTexts as, rfl⟩

theorem c5_link_shapes_witness :
    trimmedLink (AST.link "Home".data "Home".data) :=
  c5_link_shapes.2.2
    [⟨P2.TokenKind.LinkOpen, "[[".data⟩, ⟨P2.TokenKind.Text, "Home".data⟩,
     ⟨P2.TokenKind.LinkClose, "]]".data⟩]
    (AST.link "Home".data "Home".data) [] rfl

/-- Claim C6 counterexample: the live parser parses the claim's own
fixture `(history:)[You've visited (visited: "Room")]` successfully, but
the inner `(visited: "Room")` macro is left as flat text inside the
hook's raw string content — the hook node carries one plain string, not a
structured child list. -/
theorem c6_flat_hook_counterexample :
    V2.parseHarloweV2 c6Input = Except.ok (AST.program
      [AST.macroNode "history".data [] [] (some (AST.hook c6FlatHook))]) ∧
    AST.hook c6FlatHook ≠ AST.hookContent c6Children :=
  ⟨rfl, fun h => AST.noConfusion h⟩

/-- Claim C6, amended: in the live parser a macro's attached hook is a
single hook-content token whose content is kept as one flat raw string —
the `HOOK` rule can only build flat `Hook` nodes, so a nested macro call
inside the hook's brackets is left inside that flat text, and the fixture
parses to a `history` macro carrying the flat hook string.  Only the
`part_002` iteration parses the inner macro as a structured child of the
hook content: there, on a macro-name token the hook-child rule can only
produce a structured macro node, and the fixture parses with
`(visited: "Room")` as a structured child of the outer hook. -/
theorem c6_hook_nesting :
    (∀ ts r rest, V2.HOOK ts = some (r, rest) → isFlatHook r) ∧
    V2.parseHarloweV2 c6Input = Except.ok (AST.program
      [AST.macroNode "history".data [] [] (some (AST.hook c6FlatHook))]) ∧
    P2.parse002 c6Input =
      Except.ok (AST.program [AST.macro002 "history".data []
        (some (AST.hookContent c6Children))]) ∧
    ∀ (f : Nat) (t : Token P2.TokenKind) (ts rest : List (Token P2.TokenKind)) (r : AST),
      t.kind = P2.TokenKind.MacroName →
      P2.HOOK_CHILD f (t :: ts) = some (r, rest) → isMacroNode002 r := by
  refine ⟨?_, rfl, rfl, ?_⟩
  · intro ts r rest h
    unfold V2.HOOK at h
    obtain ⟨t, ht, rfl⟩ := mapP_eq_some.mp h
    exact ⟨sliceEnds t.text, rfl⟩
  intro f t ts rest r hkind h
  cases f with
  | zero => simp only [P2.HOOK_CHILD] at h; cases h
  | succ f =>
      simp only [P2.HOOK_CHILD] at h
      rcases altP_eq_some.mp h with h1 | ⟨_, h1⟩
      · obtain ⟨t', ht', rfl⟩ := mapP_eq_some.mp h1
        obtain ⟨hts, hkt⟩ := tokP_eq_some.mp ht'
        obtain rfl : t = t' := (List.cons.inj hts).1
        rw [hkind] at hkt; cases hkt
      rcases altP_eq_some.mp h1 with h2 | ⟨_, h2⟩
      · obtain ⟨t', ht', rfl⟩ := mapP_eq_some.mp h2
        obtain ⟨hts, hkt⟩ := tokP_eq_some.mp ht'
        obtain rfl : t = t' := (List.cons.inj hts).1
        rw [hkind] at hkt; cases hkt
      rcases altP_eq_some.mp h2 with h3 | ⟨_, h3⟩
      · obtain ⟨nm, args, hk, rfl⟩ := MACRO002_shape f (t :: ts) r rest h3
        exact ⟨nm, args, hk, rfl⟩
      · obtain ⟨t', ht', rfl⟩ := mapP_eq_some.mp h3
        obtain ⟨hts, hkt⟩ := tokP_eq_some.mp ht'
        obtain rfl : t = t' := (List.cons.inj hts).1
        rw [hkind] at hkt; cases hkt

theorem c6_hook_nesting_witness :
    isFlatHook (AST.hook c6FlatHook) ∧
    isMacroNode002 (AST.macro002 "visited".data [AST.str "Room".data] none) :=
  ⟨c6_hook_nesting.1 [⟨V2.TokenKind.HookContent, '[' :: (c6FlatHook ++ [']'])⟩]
      (AST.hook c6FlatHook) [] rfl,
   c6_hook_nesting.2.2.2 8
    ⟨P2.TokenKind.MacroName, "(visited:".data⟩
    [⟨P2.TokenKind.StringLiteral, "\"Room\"".data⟩, ⟨P2.TokenKind.RParen, ")".data⟩,
     ⟨P2.TokenKind.HookClose, "]".data⟩]
    [⟨P2.TokenKind.HookClose, "]".data⟩]
    (AST.macro002 "visited".data [AST.str "Room".data] none) rfl rfl⟩

/-- Claim C7: the `Program` node returned by a successful parse contains
no text or whitespace child with empty trimmed content — for the
`part_002` parser every surviving text child has non-empty trimmed
content and no whitespace child survives at all, and for the live parser
every child is a macro or unknown-macro node; moreover the surviving
children appear in the same relative order as their source constructs:
in both parsers the expression list is the truthiness filter of the
children collected by the sequential repetition in consumption order,
and that filter is an order-preserving selection (a sublist). -/
theorem c7_no_empty_text_children :
    ((∀ input prog, P2.parse002 input = Except.ok prog →
      ∀ e ∈ exprsOf prog, goodChild e) ∧
    (∀ input prog, V2.parseHarloweV2 input = Except.ok prog →
      ∀ e ∈ exprsOf prog, macroish e)) ∧
    (∀ input prog, P2.parse002 input = Except.ok prog →
      ∃ ts es, P2.tokenize002 input = .ok ts ∧
        P2.programChildren002 ts = some (es, []) ∧
        exprsOf prog = es.filter jsTruthy ∧ List.Sublist (es.filter jsTruthy) es) ∧
    (∀ input prog, V2.parseHarloweV2 input = Except.ok prog →
      ∃ ts es, V2.tokenizeV2 input = .ok ts ∧
        V2.programChildrenV2 ts = some (es, []) ∧
        exprsOf prog = es.filter jsTruthy ∧ List.Sublist (es.filter jsTruthy) es) := by
  refine ⟨⟨?_, ?_⟩, ?_, ?_⟩
  · intro input prog h e he
    unfold P2.parse002 at h
    cases htok : P2.tokenize002 input with
    | error m => rw [htok] at h; cases h
    | ok ts =>
        rw [htok] at h
        cases ts with
        | nil => cases h
        | cons t0 ts0 =>
            dsimp only [] at h
            cases hprog : P2.PROGRAM002 (t0 :: ts0) with
            | none => rw [hprog] at h; cases h
            | some q =>
                obtain ⟨prog', rest⟩ := q
                rw [hprog] at h
                cases rest with
                | cons _ _ => cases h
                | nil =>
                    obtain rfl : prog' = prog := Except.ok.inj h
                    unfold P2.PROGRAM002 at hprog
                    obtain ⟨es, hes, rfl⟩ := mapP_eq_some.mp hprog
                    have hmem : e ∈ es := by
                      have := he
                      simp only [exprsOf] at this
                      exact (List.mem_filter.mp this).1
                    exact progChildren002_good ((t0 :: ts0).length + 1)
                      (P2.fuelFor (t0 :: ts0)) (t0 :: ts0)
                      (tokenize002_Q htok) es [] hes e hmem
  · intro input prog h e he
    unfold V2.parseHarloweV2 at h
    cases htok : V2.tokenizeV2 input with
    | error m => rw [htok] at h; cases h
    | ok ts =>
        rw [htok] at h
        cases ts with
        | nil => cases h
        | cons t0 ts0 =>
            dsimp only [] at h
            cases hprog : V2.PROGRAM_RULE (t0 :: ts0) with
            | none => rw [hprog] at h; cases h
            | some q =>
                obtain ⟨prog', rest⟩ := q
                rw [hprog] at h
                cases rest with
                | cons _ _ => cases h
                | nil =>
                    obtain rfl : prog' = prog := Except.ok.inj h
                    unfold V2.PROGRAM_RULE at hprog
                    obtain ⟨es, hes, rfl⟩ := mapP_eq_some.mp hprog
                    have hmem : e ∈ es := by
                      have := he
                      simp only [exprsOf] at this
                      exact (List.mem_filter.mp this).1
                    exact childrenV2_macroish ((t0 :: ts0).length + 1) (t0 :: ts0)
                      es [] hes e hmem
  · intro input prog h
    unfold P2.parse002 at h
    cases htok : P2.tokenize002 input with
    | error m => rw [htok] at h; cases h
    | ok ts =>
        rw [htok] at h
        cases ts with
        | nil => cases h
        | cons t0 ts0 =>
            dsimp only [] at h
            cases hprog : P2.PROGRAM002 (t0 :: ts0) with
            | none => rw [hprog] at h; cases h
            | some q =>
                obtain ⟨prog', rest⟩ := q
                rw [hprog] at h
                cases rest with
                | cons _ _ => cases h
                | nil =>
                    obtain rfl : prog' = prog := Except.ok.inj h
                    unfold P2.PROGRAM002 at hprog
                    obtain ⟨es, hes, rfl⟩ := mapP_eq_some.mp hprog
                    exact ⟨t0 :: ts0, es, rfl, hes, rfl, List.filter_sublist es⟩
  · intro input prog h
    unfold V2.parseHarloweV2 at h
    cases htok : V2.tokenizeV2 input with
    | error m => rw [htok] at h; cases h
    | ok ts =>
        rw [htok] at h
        cases ts with
        | nil => cases h
        | cons t0 ts0 =>
            dsimp only [] at h
            cases hprog : V2.PROGRAM_RULE (t0 :: ts0) with
            | none => rw [hprog] at h; cases h
            | some q =>
                obtain ⟨prog', rest⟩ := q
                rw [hprog] at h
                cases rest with
                | cons _ _ => cases h
                | nil =>
                    obtain rfl : prog' = prog := Except.ok.inj h
                    unfold V2.PROGRAM_RULE at hprog
                    obtain ⟨es, hes, rfl⟩ := mapP_eq_some.mp hprog
                    exact ⟨t0 :: ts0, es, rfl, hes, rfl, List.filter_sublist es⟩

theorem c7_no_empty_text_children_witness :
    (goodChild (AST.text "Choose".data) ∧
     macroish (AST.unknownMacroNode (some "bogusMacro".data) "(bogusMacro:".data)) ∧
    (∃ ts es, P2.tokenize002 "Choose what".data = .ok ts ∧
      P2.programChildren002 ts = some (es, []) ∧
      exprsOf (AST.program [AST.text "Choose".data, AST.text "what".data]) =
        es.filter jsTruthy ∧ List.Sublist (es.filter jsTruthy) es) ∧
    (∃ ts es, V2.tokenizeV2 "(bogusMacro: 1, 2)".data = .ok ts ∧
      V2.programChildrenV2 ts = some (es, []) ∧
      exprsOf (AST.program
          [AST.unknownMacroNode (some "bogusMacro".data) "(bogusMacro:".data]) =
        es.filter jsTruthy ∧ List.Sublist (es.filter jsTruthy) es) :=
  ⟨⟨c7_no_empty_text_children.1.1 "Choose what".data
      (AST.program [AST.text "Choose".data, AST.text "what".data]) rfl
      (AST.text "Choose".data) (by simp [exprsOf]),
    c7_no_empty_text_children.1.2 "(bogusMacro: 1, 2)".data
      (AST.program [AST.unknownMacroNode (some "bogusMacro".data) "(bogusMacro:".data]) rfl
      (AST.unknownMacroNode (some "bogusMacro".data) "(bogusMacro:".data)
      (by simp [exprsOf])⟩,
   c7_no_empty_text_children.2.1 "Choose what".data
      (AST.program [AST.text "Choose".data, AST.text "what".data]) rfl,
   c7_no_empty_text_children.2.2 "(bogusMacro: 1, 2)".data
      (AST.program [AST.unknownMacroNode (some "bogusMacro".data) "(bogusMacro:".data]) rfl⟩

/-- Claim C8: parsing is deterministic — both embedded entry points are
pure functions of the input string, so two invocations on equal inputs
return structurally identical results. -/
theorem c8_deterministic (s t : Str) (h : s = t) :
    V2.parseHarloweV2 s = V2.parseHarloweV2 t ∧ P2.parse002 s = P2.parse002 t := by
  rw [h]; exact ⟨rfl, rfl⟩

theorem c8_deterministic_witness :
    V2.parseHarloweV2 "(if: $x)".data = V2.parseHarloweV2 "(if: $x)".data ∧
    P2.parse002 "(if: $x)".data = P2.parse002 "(if: $x)".data :=
  c8_deterministic "(if: $x)".data "(if: $x)".data rfl

/-- Claim C9: on the empty input and on any whitespace-only input the
tokenizer yields no token, the live parser's `Tokenization failed` guard
fires, and the caller receives the wrapped error rather than an empty
`Program`. -/
theorem c9_whitespace_only_fails (s : Str) (h : ∀ c ∈ s, jsWs c = true) :
    V2.parseHarloweV2 s = Except.error (V2.wrapErr s V2.tokFailedMsg) := by
  unfold V2.parseHarloweV2
  rw [tokenizeV2_all_ws s h]

theorem c9_whitespace_only_fails_witness :
    V2.parseHarloweV2 " \n\t".data =
      Except.error (V2.wrapErr " \n\t".data V2.tokFailedMsg) :=
  c9_whitespace_only_fails " \n\t".data (by decide)

/-- Claim C10: every failure of the live parser is surfaced as a single
error whose message begins with `Error parsing: `, the entire original
input, and then the underlying error's message — every error branch goes
through the one wrapper. -/
theorem c10_wrapped_errors (input e : Str)
    (h : V2.parseHarloweV2 input = Except.error e) :
    "Error parsing: ".data ++ input ++ ", error: ".data <+: e := by
  unfold V2.parseHarloweV2 at h
  cases htok : V2.tokenizeV2 input with
  | error m =>
      rw [htok] at h
      obtain rfl : V2.wrapErr input m = e := Except.error.inj h
      exact ⟨m, by simp [V2.wrapErr]⟩
  | ok ts =>
      rw [htok] at h
      cases ts with
      | nil =>
          obtain rfl : V2.wrapErr input V2.tokFailedMsg = e := Except.error.inj h
          exact ⟨V2.tokFailedMsg, by simp [V2.wrapErr]⟩
      | cons t0 ts0 =>
          dsimp only [] at h
          cases hprog : V2.PROGRAM_RULE (t0 :: ts0) with
          | none =>
              rw [hprog] at h
              obtain rfl : V2.wrapErr input V2.trailingMsg = e := Except.error.inj h
              exact ⟨V2.trailingMsg, by simp [V2.wrapErr]⟩
          | some q =>
              obtain ⟨prog', rest⟩ := q
              rw [hprog] at h
              cases rest with
              | nil => cases h
              | cons _ _ =>
                  obtain rfl : V2.wrapErr input V2.trailingMsg = e := Except.error.inj h
                  exact ⟨V2.trailingMsg, by simp [V2.wrapErr]⟩

theorem c10_wrapped_errors_witness :
    "Error parsing: ".data ++ ([] : Str) ++ ", error: ".data <+:
      V2.wrapErr [] V2.tokFailedMsg :=
  c10_wrapped_errors [] (V2.wrapErr [] V2.tokFailedMsg) rfl

end Twee
